import Mathlib

/-!
Shallow embedding of the Word Ladder engine (`src/algorithm.js`,
`src/game.js`) and proofs about it.

Conventions used throughout:
* JavaScript strings are modelled as `List Char`.
* JavaScript `Map` objects are modelled as association lists in insertion
  order; `Set` objects as duplicate-free lists in insertion order.
* JavaScript number arithmetic is modelled over `ℚ` (exact rationals);
  `Infinity` / `-Infinity` appear only where the source produces them and
  are modelled by `WithBot` / `WithTop`.
* `Math.random()` draws are modelled by explicit oracle arguments.
* Loops whose termination is not structural take an explicit fuel
  argument; running out of fuel is distinguishable from every result the
  JavaScript code can return.
-/

namespace WordLadder

/-- A JavaScript string (a word, a line of input, a wildcard pattern). -/
abbrev Word := List Char

/-- JS `Set.add` / insertion-ordered set insert: append if absent. -/
def setInsert {α : Type} [DecidableEq α] (l : List α) (a : α) : List α :=
  if a ∈ l then l else l ++ [a]

/-! ### Heuristic components (`heuristic`, `calculateLevenshtein`,
`calculateCharFrequencyDifference`, src/algorithm.js lines 177-258) -/

/-- The Hamming loop of `heuristic`: the number of indices `i < word1.length`
with `word1[i] !== word2[i]`.  An index beyond `word2`'s length reads
`undefined` (here `none`), which differs from every character, as in JS. -/
def hammingJs (w1 w2 : Word) : ℕ :=
  (List.range w1.length).countP (fun i => w1[i]? ≠ w2[i]?)

/-- Entry `matrix[i][j]` of the dynamic-programming matrix built by
`calculateLevenshtein` (`word2` indexes rows, `word1` columns; first column
`i`, first row `j`; `charAt` out of bounds yields the empty string on both
sides, which is why both out-of-bounds reads compare equal, exactly as the
`none = none` case here). -/
def levEntry (w1 w2 : Word) : ℕ → ℕ → ℕ
  | 0, j => j
  | i+1, 0 => i+1
  | i+1, j+1 =>
    if w2[i]? = w1[j]? then levEntry w1 w2 i j
    else
      min (levEntry w1 w2 i j + 1)
        (min (levEntry w1 w2 (i+1) j + 1) (levEntry w1 w2 i (j+1) + 1))
  termination_by i j => i + j

/-- `calculateLevenshtein(word1, word2) = matrix[word2.length][word1.length]`. -/
def calculateLevenshtein (w1 w2 : Word) : ℕ :=
  levEntry w1 w2 w2.length w1.length

/-- `calculateCharFrequencyDifference`: over every character occurring in
either word, sum `|count_in_word1 - count_in_word2|`. -/
def calculateCharFrequencyDifference (w1 w2 : Word) : ℕ :=
  (((w1 ++ w2).dedup).map
    (fun c => ((w1.count c : ℤ) - (w2.count c : ℤ)).natAbs)).sum

/-- `heuristic` (the memoised value): composite estimate
`hamming*0.6 + levenshtein*0.3 + charFreqDiff*0.1`. -/
def heuristic (w1 w2 : Word) : ℚ :=
  (hammingJs w1 w2 : ℚ) * 0.6 + (calculateLevenshtein w1 w2 : ℚ) * 0.3
    + (calculateCharFrequencyDifference w1 w2 : ℚ) * 0.1

/-- The `heuristicCache` map, keyed by the ordered pair (the source key is
the string `` `${word1}-${word2}` ``; words are purely alphabetic, so the
pair is an equivalent key). -/
abbrev HeurCache := List ((Word × Word) × ℚ)

/-- Association-list lookup (JS `Map.get`). -/
def hcLookup : HeurCache → Word × Word → Option ℚ
  | [], _ => none
  | (k, v) :: rest, key => if k = key then some v else hcLookup rest key

/-- `heuristic` with its memo cache threaded explicitly: on a miss the
computed value is appended (JS `Map.set` inserts at the end). -/
def heuristicSt (c : HeurCache) (w1 w2 : Word) : ℚ × HeurCache :=
  match hcLookup c (w1, w2) with
  | some v => (v, c)
  | none => (heuristic w1 w2, c ++ [((w1, w2), heuristic w1 w2)])

/-- A heuristic cache is consistent when every stored value is the value
`heuristic` computes for its key.  The empty cache is consistent, and
`heuristicSt` preserves consistency, so every cache arising in a run is. -/
def HCConsistent (c : HeurCache) : Prop :=
  ∀ k v, hcLookup c k = some v → v = heuristic k.1 k.2

/-! ### Dictionary loading (`initialize`, src/algorithm.js lines 18-41) -/

/-- JS `String.prototype.trim`: strip leading and trailing whitespace. -/
def trimJs (l : Word) : Word :=
  ((l.dropWhile Char.isWhitespace).reverse.dropWhile Char.isWhitespace).reverse

/-- JS `split(' ')`: split at every single space character, keeping empty
segments; the result is always non-empty. -/
def splitSpace : Word → List Word
  | [] => [[]]
  | c :: rest =>
    match splitSpace rest with
    | [] => [[]]
    | w :: ws => if c = ' ' then [] :: w :: ws else (c :: w) :: ws

/-- `parts[parts.length - 1]`: the last segment of the split. -/
def lastSegment (l : List Word) : Word := l.getLastD []

/-- One raw line → candidate word: last whitespace-delimited token of the
trimmed line, lower-cased (`line.trim().split(' ')`, last element,
`toLowerCase()`). -/
def extractWord (line : Word) : Word :=
  (lastSegment (splitSpace (trimJs line))).map Char.toLower

/-- The filter `/^[a-z]+$/.test(word)`. -/
def isAzWord (w : Word) : Bool :=
  !w.isEmpty && w.all (fun c => 'a' ≤ c && c ≤ 'z')

/-- `processedWords`: candidate word of every line, keeping only the purely
alphabetic ones. -/
def processedWords (lines : List Word) : List Word :=
  (lines.map extractWord).filter isAzWord

/-- `this.wordSet = new Set(processedWords)`: insertion-ordered set. -/
def wordSetOf (lines : List Word) : List Word :=
  (processedWords lines).foldl setInsert []

/-- `this.wordsByLength.get(L)`: the set of processed words of length `L`,
in insertion order. -/
def wordsOfLength (lines : List Word) (L : ℕ) : List Word :=
  (processedWords lines).foldl
    (fun acc w => if w.length = L then setInsert acc w else acc) []

/-- The keys of `this.wordsByLength`, in insertion order. -/
def lengthsOf (lines : List Word) : List ℕ :=
  (processedWords lines).foldl (fun acc w => setInsert acc w.length) []

/-! ### Graph construction (`buildWordGraph`, src/algorithm.js lines 45-88) -/

/-- `word.substring(0, i) + '*' + word.substring(i + 1)`. -/
def patternJs (w : Word) (i : ℕ) : Word :=
  w.take i ++ '*' :: w.drop (i + 1)

/-- The adjacency map `this.wordGraph`: keys in insertion order, each key
with its neighbor set as an insertion-ordered duplicate-free list. -/
abbrev Graph := List (Word × List Word)

/-- JS `Map.get` on the graph. -/
def gLookup : Graph → Word → Option (List Word)
  | [], _ => none
  | (k, v) :: rest, w => if k = w then some v else gLookup rest w

/-- `if (!this.wordGraph.has(w)) { this.wordGraph.set(w, new Set()) }`. -/
def gEnsure (g : Graph) (w : Word) : Graph :=
  match gLookup g w with
  | some _ => g
  | none => g ++ [(w, [])]

/-- `this.wordGraph.get(k).add(v)` (updates the entry of key `k`). -/
def gAddNbr (g : Graph) (k v : Word) : Graph :=
  g.map (fun e => if e.1 = k then (e.1, setInsert e.2 v) else e)

/-- The bucket double-loop body for one pair `(word1, word2)`: ensure both
keys, then add each word to the other's neighbor set. -/
def addEdge (g : Graph) (a b : Word) : Graph :=
  gAddNbr (gAddNbr (gEnsure (gEnsure g a) b) a b) b a

/-- The `for (i) for (j = i+1)` loops over one bucket's word array. -/
def addBucketEdges (g : Graph) : List Word → Graph
  | [] => g
  | w :: rest => addBucketEdges (rest.foldl (fun g' v => addEdge g' w v) g) rest

/-- Push `w` into the bucket keyed by pattern `p` (`buckets` map; a new key
is appended at the end, an existing bucket grows by `push`). -/
def bInsert : List (Word × List Word) → Word → Word → List (Word × List Word)
  | [], p, w => [(p, [w])]
  | (q, ws) :: rest, p, w =>
    if q = p then (q, ws ++ [w]) :: rest else (q, ws) :: bInsert rest p w

/-- Bucket map for one length class: every word is pushed into the bucket
of each of its wildcard patterns. -/
def buildBuckets (words : List Word) : List (Word × List Word) :=
  words.foldl
    (fun bs w =>
      (List.range w.length).foldl (fun bs' i => bInsert bs' (patternJs w i) w) bs)
    []

/-- Process one length class: bucket the words, then connect every pair
inside each bucket. -/
def graphForLength (g : Graph) (words : List Word) : Graph :=
  (buildBuckets words).foldl (fun g' b => addBucketEdges g' b.2) g

/-- `buildWordGraph` after `initialize(lines)`: fold the length classes in
insertion order into one adjacency map. -/
def buildWordGraphOf (lines : List Word) : Graph :=
  (lengthsOf lines).foldl (fun g L => graphForLength g (wordsOfLength lines L)) []

/-- `getNeighbors(word)`: `Array.from(this.wordGraph.get(word) || [])`. -/
def getNeighbors (g : Graph) (w : Word) : List Word :=
  (gLookup g w).getD []

/-- The observable state `initialize(lines)` leaves behind (word set and
word graph).  `initialize` is total: no input makes it throw. -/
def initializeState (lines : List Word) : List Word × Graph :=
  (wordSetOf lines, buildWordGraphOf lines)

/-- Assoc find on the bucket map (`buckets.has` / `buckets.get`). -/
def bFind : List (Word × List Word) → Word → Option (List Word)
  | [], _ => none
  | (q, ws) :: rest, p => if q = p then some ws else bFind rest p

/-- The words of bucket `p` (empty when the key is absent). -/
def bLookup (bs : List (Word × List Word)) (p : Word) : List Word :=
  (bFind bs p).getD []

/-- What one length class's bucket for pattern `p` contains: each word `w`,
once for every position whose wildcard pattern is `p`, in word order. -/
def bucketSpec (ws : List Word) (p : Word) : List Word :=
  ws.flatMap (fun w =>
    ((List.range w.length).filter (fun i => patternJs w i = p)).map (fun _ => w))

/-! ### A* search (`findPath`, src/algorithm.js lines 93-172) -/

/-- JS `Map.get` (generic association list, first match). -/
def alLookup {κ β : Type} [DecidableEq κ] : List (κ × β) → κ → Option β
  | [], _ => none
  | (q, u) :: rest, k => if q = k then some u else alLookup rest k

/-- JS `Map.set`: update the existing entry in place, else append. -/
def alSet {κ β : Type} [DecidableEq κ] : List (κ × β) → κ → β → List (κ × β)
  | [], k, v => [(k, v)]
  | (q, u) :: rest, k, v =>
    if q = k then (q, v) :: rest else (q, u) :: alSet rest k v

/-- JS `Map.delete`. -/
def alDelete {κ β : Type} [DecidableEq κ] : List (κ × β) → κ → List (κ × β)
  | [], _ => []
  | (q, u) :: rest, k => if q = k then rest else (q, u) :: alDelete rest k

/-- The A* working state: open set with its priorities (insertion-ordered,
`Infinity` = `⊤` only as the transient placeholder the source writes before
relaxing), closed set, predecessor links, `gScore` and `fScore` maps. -/
structure AStarState where
  openSet : List (Word × WithTop ℚ)
  closedSet : List Word
  cameFrom : List (Word × Word)
  gScore : List (Word × ℕ)
  fScore : List (Word × ℚ)
  deriving DecidableEq

/-- The open-set minimum scan: first node whose priority is strictly lower
than everything before it (`f < lowestF`, starting from `Infinity`). -/
def selectLowest (openSet : List (Word × WithTop ℚ)) : Option Word :=
  (openSet.foldl
    (fun acc e =>
      match acc with
      | none => if (e.2 < (⊤ : WithTop ℚ)) then some e else none
      | some b => if e.2 < b.2 then some e else some b)
    none).map Prod.fst

/-- Path reconstruction: `while (temp) { path.unshift(temp); temp =
cameFrom.get(temp) }`; the fuel bounds the walk (the source loop would run
forever on a cyclic or broken chain; that state is unreachable). -/
def reconstructPath (cameFrom : List (Word × Word)) :
    Option Word → List Word → ℕ → Option (List Word)
  | _, _, 0 => none
  | none, acc, _ + 1 => some acc
  | some w, acc, fuel + 1 =>
    reconstructPath cameFrom (alLookup cameFrom w) (w :: acc) fuel

/-- `gScore.get(neighbor) || Infinity` — note `0` is falsy in JS, so a zero
score would also read as `Infinity` (harmless: only the start word has score
`0`, and it is closed before any relaxation can see it). -/
def jsOrInfinity : Option ℕ → WithTop ℕ
  | none => ⊤
  | some 0 => ⊤
  | some (n+1) => (n+1 : ℕ)

/-- Relaxation of one neighbor of `current` (the inner `for` body). -/
def relaxNeighbor (endW : Word) (useH : Bool) (current : Word)
    (st : AStarState) (neighbor : Word) : AStarState :=
  if neighbor ∈ st.closedSet then st
  else
    let tentative : ℕ := (alLookup st.gScore current).getD 0 + 1
    let st1 := if (alLookup st.openSet neighbor).isSome then st
      else { st with openSet := alSet st.openSet neighbor ⊤ }
    if (tentative : WithTop ℕ) < jsOrInfinity (alLookup st1.gScore neighbor) then
      let fNew : ℚ := (tentative : ℚ) + (if useH then heuristic neighbor endW else 0)
      { st1 with
        cameFrom := alSet st1.cameFrom neighbor current,
        gScore := alSet st1.gScore neighbor tentative,
        fScore := alSet st1.fScore neighbor fNew,
        openSet := alSet st1.openSet neighbor (fNew : WithTop ℚ) }
    else st1

/-- The A* main loop; one fuel unit per iteration (the source loop closes a
fresh node every iteration, so `|graph| + 2` fuel never runs out). -/
def aStarLoop (g : Graph) (endW : Word) (useH : Bool) :
    AStarState → ℕ → Option (List Word)
  | _, 0 => none
  | st, fuel + 1 =>
    if st.openSet.isEmpty then none
    else
      match selectLowest st.openSet with
      | none => none
      | some current =>
        if current = endW then
          reconstructPath st.cameFrom (some current) [] (st.cameFrom.length + 2)
        else
          let st1 := { st with
            openSet := alDelete st.openSet current,
            closedSet := st.closedSet ++ [current] }
          let st2 := (getNeighbors g current).foldl
            (relaxNeighbor endW useH current) st1
          aStarLoop g endW useH st2 fuel

/-- Initial A* state for `findPath(start, end)`. -/
def aStarInit (start endW : Word) (useH : Bool) : AStarState :=
  { openSet := [(start, ((0 : ℚ) : WithTop ℚ))]
    closedSet := []
    cameFrom := []
    gScore := [(start, 0)]
    fScore := [(start, if useH then heuristic start endW else 0)] }

/-- The body of `findPath` between the cache check and the cache store. -/
def aStarSearch (g : Graph) (start endW : Word) (useH : Bool) :
    Option (List Word) :=
  aStarLoop g endW useH (aStarInit start endW useH) (g.length + 2)

/-- `this.precomputedPaths`, keyed by the ordered `(start, end)` pair (the
source key is the string `` `${start}-${end}` ``; words are purely
alphabetic, so the pair is an equivalent key). -/
abbrev PathCache := List ((Word × Word) × List Word)

/-- `findPath(start, end, useHeuristic)` with the path cache threaded:
guards first, then the cache, then the search; only a successful search
stores its path. -/
def findPathSt (g : Graph) (c : PathCache) (start endW : Word) (useH : Bool) :
    Option (List Word) × PathCache :=
  if start.length ≠ endW.length then (none, c)
  else if start = endW then (some [start], c)
  else
    match alLookup c (start, endW) with
    | some p => (some p, c)
    | none =>
      match aStarSearch g start endW useH with
      | some path => (some path, alSet c (start, endW) path)
      | none => (none, c)

/-- The value `findPath(start, end)` returns (default heuristic on). -/
def findPathVal (g : Graph) (c : PathCache) (start endW : Word) :
    Option (List Word) :=
  (findPathSt g c start endW true).1

/-! ### Bidirectional BFS (`findPathBidirectional`,
`reconstructBidirectionalPath`, src/algorithm.js lines 263-361) -/

/-- Working state of the bidirectional search. -/
structure BidiState where
  forwardQueue : List Word
  backwardQueue : List Word
  forwardVisited : List (Word × ℕ)
  backwardVisited : List (Word × ℕ)
  forwardParent : List (Word × Word)
  backwardParent : List (Word × Word)
  deriving DecidableEq

/-- The forward half of `reconstructBidirectionalPath`:
`while (current !== start) { forwardPath.unshift(current); current =
forwardParent.get(current) }`.  `current` may become `undefined` (`none`),
in which case the source loop never exits; the fuel makes that observable
as `none`. -/
def walkForward (fp : List (Word × Word)) (start : Word) :
    Option Word → List Word → ℕ → Option (List Word)
  | _, _, 0 => none
  | cur, acc, fuel + 1 =>
    if cur = some start then some acc
    else
      match cur with
      | some w => walkForward fp start (alLookup fp w) (w :: acc) fuel
      | none => walkForward fp start none acc fuel

/-- The backward half: `while (current && current !== end) { push; step }`,
then `if (current === end) push(end)`. -/
def walkBackward (bp : List (Word × Word)) (endW : Word) :
    Option Word → List Word → ℕ → Option (List Word)
  | _, _, 0 => none
  | cur, acc, fuel + 1 =>
    match cur with
    | none => some acc
    | some w =>
      if w = endW then some (acc ++ [endW])
      else walkBackward bp endW (alLookup bp w) (acc ++ [w]) fuel

/-- `reconstructBidirectionalPath(meetingPoint, forwardParent,
backwardParent, start, end)`. -/
def reconBidi (fp bp : List (Word × Word)) (meeting start endW : Word)
    (fuel : ℕ) : Option (List Word) :=
  match walkForward fp start (some meeting) [] fuel with
  | none => none
  | some facc =>
    match walkBackward bp endW (alLookup bp meeting) [] fuel with
    | none => none
    | some bacc => some ((start :: facc) ++ bacc)

/-- Scan the neighbors of one dequeued forward node: a neighbor already
backward-visited triggers the early return; otherwise unvisited neighbors
are enqueued (the parent entry is only written in this second branch). -/
def fwdScanNbrs (recFuel : ℕ) (start endW : Word) (level : ℕ)
    (current : Word) : List Word → BidiState →
      Except (Option (List Word)) BidiState
  | [], st => .ok st
  | n :: rest, st =>
    if (alLookup st.backwardVisited n).isSome then
      .error (reconBidi st.forwardParent st.backwardParent n start endW recFuel)
    else
      let st' := if (alLookup st.forwardVisited n).isSome then st
        else { st with
          forwardVisited := alSet st.forwardVisited n level,
          forwardParent := alSet st.forwardParent n current,
          forwardQueue := st.forwardQueue ++ [n] }
      fwdScanNbrs recFuel start endW level current rest st'

/-- Dequeue and process `forwardSize` forward nodes. -/
def fwdExpand (g : Graph) (recFuel : ℕ) (start endW : Word) (level : ℕ) :
    ℕ → BidiState → Except (Option (List Word)) BidiState
  | 0, st => .ok st
  | k + 1, st =>
    match st.forwardQueue with
    | [] => .ok st
    | cur :: rest =>
      match fwdScanNbrs recFuel start endW level cur (getNeighbors g cur)
          { st with forwardQueue := rest } with
      | .error r => .error r
      | .ok st2 => fwdExpand g recFuel start endW level k st2

/-- Scan the neighbors of one dequeued backward node (mirror image). -/
def bwdScanNbrs (recFuel : ℕ) (start endW : Word) (level : ℕ)
    (current : Word) : List Word → BidiState →
      Except (Option (List Word)) BidiState
  | [], st => .ok st
  | n :: rest, st =>
    if (alLookup st.forwardVisited n).isSome then
      .error (reconBidi st.forwardParent st.backwardParent n start endW recFuel)
    else
      let st' := if (alLookup st.backwardVisited n).isSome then st
        else { st with
          backwardVisited := alSet st.backwardVisited n level,
          backwardParent := alSet st.backwardParent n current,
          backwardQueue := st.backwardQueue ++ [n] }
      bwdScanNbrs recFuel start endW level current rest st'

/-- Dequeue and process `backwardSize` backward nodes. -/
def bwdExpand (g : Graph) (recFuel : ℕ) (start endW : Word) (level : ℕ) :
    ℕ → BidiState → Except (Option (List Word)) BidiState
  | 0, st => .ok st
  | k + 1, st =>
    match st.backwardQueue with
    | [] => .ok st
    | cur :: rest =>
      match bwdScanNbrs recFuel start endW level cur (getNeighbors g cur)
          { st with backwardQueue := rest } with
      | .error r => .error r
      | .ok st2 => bwdExpand g recFuel start endW level k st2

/-- The outer `while` of `findPathBidirectional`.  Results: `none` = the
call does not return within the fuel (in particular a diverging
reconstruction), `some none` = the source returns `null`, `some (some p)` =
the source returns path `p`. -/
def bidiLoop (g : Graph) (recFuel : ℕ) (start endW : Word) :
    BidiState → ℕ → ℕ → Option (Option (List Word))
  | _, _, 0 => none
  | st, level, fuel + 1 =>
    if st.forwardQueue = [] ∨ st.backwardQueue = [] then some none
    else
      match fwdExpand g recFuel start endW (level + 1)
          st.forwardQueue.length st with
      | .error r =>
        match r with
        | some p => some (some p)
        | none => none
      | .ok st1 =>
        match bwdExpand g recFuel start endW (level + 1)
            st1.backwardQueue.length st1 with
        | .error r =>
          match r with
          | some p => some (some p)
          | none => none
        | .ok st2 => bidiLoop g recFuel start endW st2 (level + 1) fuel

/-- `findPathBidirectional(start, end)` (no cache interaction anywhere). -/
def findPathBidirectional (g : Graph) (start endW : Word)
    (fuel recFuel : ℕ) : Option (Option (List Word)) :=
  if start.length ≠ endW.length then some none
  else if start = endW then some (some [start])
  else
    bidiLoop g recFuel start endW
      { forwardQueue := [start], backwardQueue := [endW],
        forwardVisited := [(start, 0)], backwardVisited := [(endW, 0)],
        forwardParent := [], backwardParent := [] }
      0 fuel

/-! ### Difficulty scoring (`calculateDifficulty`, src/algorithm.js
lines 685-697) -/

/-- `calculateDifficulty(startWord, endWord)`: `Infinity` (here `⊤`) when no
path exists; otherwise `pathLength*10 + hammingDistance*5 +
(10 - avgNeighbors)` — where the source variable named `hammingDistance`
holds `this.heuristic(startWord, endWord)`, the composite estimate. -/
def calculateDifficulty (g : Graph) (c : PathCache) (startW endW : Word) :
    WithTop ℚ :=
  match findPathVal g c startW endW with
  | none => ⊤
  | some path =>
    let pathLength : ℚ := path.length
    let hammingDistance : ℚ := heuristic startW endW
    let avgNeighbors : ℚ :=
      ((path.map (fun w => ((getNeighbors g w).length : ℚ))).sum) / path.length
    ((pathLength * 10 + hammingDistance * 5 + (10 - avgNeighbors) : ℚ) : WithTop ℚ)

/-- Modelled from the claim's wording for comparison: the difficulty
formula with the true Hamming distance (count of differing positions) in
place of the composite heuristic. -/
def difficultySpecC4 (g : Graph) (c : PathCache) (startW endW : Word) :
    WithTop ℚ :=
  match findPathVal g c startW endW with
  | none => ⊤
  | some path =>
    let pathLength : ℚ := path.length
    let avgNeighbors : ℚ :=
      ((path.map (fun w => ((getNeighbors g w).length : ℚ))).sum) / path.length
    ((pathLength * 10 + (hammingJs startW endW : ℚ) * 5 + (10 - avgNeighbors) : ℚ)
      : WithTop ℚ)

/-! ### Cache idempotence: entries only ever hold search results, so the
value a `findPath` call returns never depends on how the cache was
populated. -/

/-- Every cached entry is the result the search would compute afresh. -/
def CacheConsistent (g : Graph) (c : PathCache) : Prop :=
  ∀ k p, alLookup c k = some p → aStarSearch g k.1 k.2 true = some p

/-! ### Random pair generation (`generateRandomPair`, src/algorithm.js
lines 655-680) -/

/-- The sampling loop of `generateRandomPair`: `remaining` counts the
attempts left out of 100, `i` is the index of the current attempt's random
draws (two per attempt, reduced modulo the word count exactly as
`Math.floor(Math.random() * length)` always lands in range). -/
def genLoop (g : Graph) (c : PathCache) (ws : List Word)
    (draws : ℕ → ℕ × ℕ) : ℕ → ℕ → Option (Word × Word × ℕ)
  | 0, _ => none
  | remaining + 1, i =>
    let startWord := ws.getD ((draws i).1 % ws.length) []
    let endWord := ws.getD ((draws i).2 % ws.length) []
    if startWord ≠ endWord then
      match findPathVal g c startWord endWord with
      | some p =>
        if 2 < p.length ∧ p.length < 8 then some (startWord, endWord, p.length)
        else genLoop g c ws draws remaining (i + 1)
      | none => genLoop g c ws draws remaining (i + 1)
    else genLoop g c ws draws remaining (i + 1)

/-- `generateRandomPair(wordLength)` over the state built from `lines`:
fewer than two words of that length answers `none` at once, otherwise at
most 100 sampled pairs are tried. -/
def generateRandomPair (lines : List Word) (c : PathCache)
    (draws : ℕ → ℕ × ℕ) (wordLength : ℕ) : Option (Word × Word × ℕ) :=
  let wordsOfLen := wordsOfLength lines wordLength
  if wordsOfLen.length < 2 then none
  else genLoop (buildWordGraphOf lines) c wordsOfLen draws 100 0

/-! ### Expert AI: minimax with alpha-beta pruning (`evaluatePosition`,
`minimax`, `selectExpertMove`, src/algorithm.js lines 483-567) -/

/-- JS numbers as used by the minimax scores: rationals extended with
`-Infinity` (`⊥`) and `Infinity` (`⊤`). -/
abbrev Score := WithBot (WithTop ℚ)

/-- `evaluatePosition(currentWord, targetWord, playerLadder)`:
`100 - distanceToTarget - pathLength*2` (+ the opponent bonus when a ladder
is supplied); `pathLength` is `Infinity` when no path exists, making the
score `-Infinity`. -/
def evaluatePosition (g : Graph) (c : PathCache) (targetWord : Word)
    (playerLadder : List Word) (currentWord : Word) : Score :=
  let distanceToTarget : ℚ := heuristic currentWord targetWord
  match findPathVal g c currentWord targetWord with
  | none => ⊥
  | some path =>
    let base : ℚ := 100 - distanceToTarget - (path.length : ℚ) * 2
    let score : ℚ :=
      if playerLadder ≠ [] then
        base + (heuristic (playerLadder.getLastD []) targetWord
          - distanceToTarget) * 10
      else base
    ((score : WithTop ℚ) : Score)

mutual

/-- `minimax(currentWord, targetWord, depth, alpha, beta, isMaximizing,
playerLadder)`, with the evaluation function abstracted (the source closes
over `targetWord` and `playerLadder` through `evaluatePosition`). -/
def minimax (g : Graph) (tgt : Word) (eval : Word → Score) :
    ℕ → Word → Score → Score → Bool → Score × Option Word
  | 0, cur, _, _, _ => (eval cur, none)
  | depth + 1, cur, alpha, beta, isMax =>
    if cur = tgt then (eval cur, none)
    else
      let neighbors := getNeighbors g cur
      if neighbors = [] then ((if isMax then ⊥ else ⊤), none)
      else if isMax then
        maxLoop g tgt eval depth neighbors ⊥ none alpha beta
      else
        minLoop g tgt eval depth neighbors ⊤ none alpha beta
  termination_by d _ _ _ _ => (d, 0)

/-- The maximizing `for` loop, with the alpha-beta break after each child. -/
def maxLoop (g : Graph) (tgt : Word) (eval : Word → Score) (depth : ℕ) :
    List Word → Score → Option Word → Score → Score → Score × Option Word
  | [], maxScore, best, _, _ => (maxScore, best)
  | n :: rest, maxScore, best, alpha, beta =>
    let r := minimax g tgt eval depth n alpha beta false
    let maxScore' := if maxScore < r.1 then r.1 else maxScore
    let best' := if maxScore < r.1 then some n else best
    let alpha' := max alpha r.1
    if beta ≤ alpha' then (maxScore', best')
    else maxLoop g tgt eval depth rest maxScore' best' alpha' beta
  termination_by l _ _ _ _ => (depth, l.length + 1)

/-- The minimizing `for` loop, dually. -/
def minLoop (g : Graph) (tgt : Word) (eval : Word → Score) (depth : ℕ) :
    List Word → Score → Option Word → Score → Score → Score × Option Word
  | [], minScore, best, _, _ => (minScore, best)
  | n :: rest, minScore, best, alpha, beta =>
    let r := minimax g tgt eval depth n alpha beta true
    let minScore' := if r.1 < minScore then r.1 else minScore
    let best' := if r.1 < minScore then some n else best
    let beta' := min beta r.1
    if beta' ≤ alpha then (minScore', best')
    else minLoop g tgt eval depth rest minScore' best' alpha beta'
  termination_by l _ _ _ _ => (depth, l.length + 1)

end

/-- `selectExpertMove`: depth-4 minimax from the full window, returning the
chosen move. -/
def selectExpertMove (g : Graph) (c : PathCache) (currentWord targetWord : Word)
    (playerLadder : List Word) : Option Word :=
  (minimax g targetWord (evaluatePosition g c targetWord playerLadder) 4
    currentWord ⊥ ⊤ true).2

/-- Modelled from the spec's words for the comparison in Scenario 4: the
same depth-limited minimax over the same evaluation function with no
pruning — every child is scored and the exact max/min is taken. -/
def minimaxBF (g : Graph) (tgt : Word) (eval : Word → Score) :
    ℕ → Word → Bool → Score
  | 0, cur, _ => eval cur
  | depth + 1, cur, isMax =>
    if cur = tgt then eval cur
    else
      let neighbors := getNeighbors g cur
      if neighbors = [] then (if isMax then ⊥ else ⊤)
      else if isMax then
        (neighbors.map (fun n => minimaxBF g tgt eval depth n false)).foldl max ⊥
      else
        (neighbors.map (fun n => minimaxBF g tgt eval depth n true)).foldl min ⊤

/-- The fail-soft contract of alpha-beta: inside the window the returned
score is exact; a low failure bounds the true value from above at `alpha`;
a high failure bounds it from below at `beta`. -/
def FailSoft (r v alpha beta : Score) : Prop :=
  (r ≤ alpha → v ≤ alpha) ∧ (beta ≤ r → beta ≤ v) ∧
    (alpha < r → r < beta → r = v)

/-! ### The other AI strategies and the difficulty dispatch
(`selectAIMove`, `selectEasyMove`, `selectMediumMove`, `selectHardMove`,
`findBlockingMove`, src/algorithm.js lines 366-478, 572-589).
`Math.random()` draws are an oracle `rng` indexed by call site; each value
is a rational in `[0, 1)`. -/

/-- `Math.floor(r * length)` (the index pick). -/
def pickIndex (r : ℚ) (n : ℕ) : ℕ := (r * (n : ℚ)).floor.toNat

/-- `selectEasyMove`: 30% random neighbor, otherwise a uniformly random
non-worsening neighbor (falling back to any neighbor). -/
def selectEasyMove (g : Graph) (cur tgt : Word) (rng : ℕ → ℚ) : Option Word :=
  let neighbors := getNeighbors g cur
  if neighbors = [] then none
  else if rng 0 < 0.3 then
    some (neighbors.getD (pickIndex (rng 1) neighbors.length) [])
  else
    let validMoves := neighbors.filter
      (fun w => heuristic w tgt ≤ heuristic cur tgt)
    if validMoves.length > 0 then
      some (validMoves.getD (pickIndex (rng 2) validMoves.length) [])
    else
      some (neighbors.getD (pickIndex (rng 3) neighbors.length) [])

/-- `selectMediumMove`: score each neighbor by
`heuristic + 0.3 * best two-step lookahead` (`Infinity` when the neighbor
has no neighbors), sort ascending, then 70% best move / 30% among top 3. -/
def selectMediumMove (g : Graph) (cur tgt : Word) (rng : ℕ → ℚ) :
    Option Word :=
  let neighbors := getNeighbors g cur
  if neighbors = [] then none
  else
    let scoredMoves := neighbors.map (fun neighbor =>
      (neighbor,
        ((heuristic neighbor tgt : WithTop ℚ)
          + ((getNeighbors g neighbor).foldl
              (fun best nn =>
                if ((heuristic nn tgt : ℚ) : WithTop ℚ) < best
                then ((heuristic nn tgt : ℚ) : WithTop ℚ) else best)
              ⊤) * ((0.3 : ℚ) : WithTop ℚ))))
    let sorted := scoredMoves.mergeSort (fun a b => a.2 ≤ b.2)
    if rng 0 < 0.7 then
      some ((sorted.getD 0 ([], ⊤)).1)
    else
      let topMoves := sorted.take (min 3 sorted.length)
      some ((topMoves.getD (pickIndex (rng 1) topMoves.length) ([], ⊤)).1)

/-- `findBlockingMove`: first AI neighbor lying strictly inside the
opponent's optimal path. -/
def findBlockingMove (g : Graph) (c : PathCache) (aiWord playerWord tgt : Word) :
    Option Word :=
  let aiNeighbors := getNeighbors g aiWord
  match findPathVal g c playerWord tgt with
  | none => none
  | some playerPath =>
    if playerPath.length < 3 then none
    else
      let playerPathSet := (playerPath.drop 1).dropLast
      (aiNeighbors.filter (fun m => m ∈ playerPathSet)).head?

/-- `selectHardMove`: follow the optimal path, with a 30% blocking attempt
and a 20% deviation to a near-optimal alternative. -/
def selectHardMove (g : Graph) (c : PathCache) (cur tgt : Word)
    (playerLadder : List Word) (rng : ℕ → ℚ) : Option Word :=
  match findPathVal g c cur tgt with
  | none => selectMediumMove g cur tgt rng
  | some optimalPath =>
    if optimalPath.length < 2 then selectMediumMove g cur tgt rng
    else
      let blockingResult : Option Word :=
        if playerLadder ≠ [] then
          if rng 0 < 0.3 then
            findBlockingMove g c cur (playerLadder.getLastD []) tgt
          else none
        else none
      match blockingResult with
      | some m => some m
      | none =>
        let nextMove := optimalPath.getD 1 []
        if rng 1 < 0.2 then
          let alternatives := (getNeighbors g cur).filter
            (fun w => w ≠ nextMove ∧ heuristic w tgt ≤ heuristic cur tgt + 1)
          if alternatives.length > 0 then
            some (alternatives.getD (pickIndex (rng 2) alternatives.length) [])
          else some nextMove
        else some nextMove

/-- The result of a JS call that may throw. -/
inductive JsError : Type
  | typeError
  deriving DecidableEq

/-- A JavaScript value as observed from the `selectAIMove` call site:
either a move (a word or `null`/`undefined`, as the four strategies
return), or one of the non-move values produced when the property lookup
resolves to a member inherited from `Object.prototype` - a string, a
boolean, `undefined`, or an object (the strategies object itself for
`valueOf`, a wrapper object for `constructor`). -/
inductive JsValue : Type
  | move (w : Option Word)
  | str (s : String)
  | bool (b : Bool)
  | undef
  | obj
  deriving DecidableEq

/-- The `strategies` object literal of `selectAIMove`, in source order. -/
def strategiesTable (g : Graph) (c : PathCache) :
    List (String × (Word → Word → List Word → (ℕ → ℚ) → Option Word)) :=
  [("easy", fun cur tgt _ rng => selectEasyMove g cur tgt rng),
   ("medium", fun cur tgt _ rng => selectMediumMove g cur tgt rng),
   ("hard", fun cur tgt ladder rng => selectHardMove g c cur tgt ladder rng),
   ("expert", fun cur tgt ladder _ => selectExpertMove g c cur tgt ladder)]

/-- Property names that a miss on the own keys of an object literal still
resolves, by walking the prototype chain to `Object.prototype`: its seven
standard function-valued data properties, the four Annex B getter/setter
helpers (present in browsers, where this game runs), and the Annex B
accessor `__proto__`. -/
def objectPrototypeKeys : List String :=
  ["constructor", "hasOwnProperty", "isPrototypeOf", "propertyIsEnumerable",
   "toLocaleString", "toString", "valueOf", "__defineGetter__",
   "__defineSetter__", "__lookupGetter__", "__lookupSetter__", "__proto__"]

/-- The outcome of `strategies[name](currentWord, targetWord, playerLadder)`
when `name` resolves on `Object.prototype` (the built-ins ignore surplus
arguments): `toString` and `toLocaleString` return the string
`"[object Object]"`; `valueOf` returns the strategies object and
`constructor` (the `Object` function) returns a wrapper object;
`hasOwnProperty` and `propertyIsEnumerable` coerce `currentWord` to a
property key and report whether it is one of the four own (enumerable)
keys; `isPrototypeOf` returns `false` because `currentWord` is a string
primitive, not an object; `__lookupGetter__` and `__lookupSetter__` find no
accessor and return `undefined`; `__defineGetter__` and `__defineSetter__`
throw a `TypeError` because their second argument, `targetWord`, is a
string and not callable; and `__proto__` reads as the `Object.prototype`
object itself, which is not a function, so calling it throws a
`TypeError`. -/
def callInherited (currentWord : Word) (name : String) :
    Except JsError JsValue :=
  if name = "toString" ∨ name = "toLocaleString" then
    .ok (.str "[object Object]")
  else if name = "valueOf" ∨ name = "constructor" then .ok .obj
  else if name = "hasOwnProperty" ∨ name = "propertyIsEnumerable" then
    .ok (.bool (decide (String.mk currentWord ∈
      (["easy", "medium", "hard", "expert"] : List String))))
  else if name = "isPrototypeOf" then .ok (.bool false)
  else if name = "__lookupGetter__" ∨ name = "__lookupSetter__" then
    .ok .undef
  else .error .typeError

/-- `selectAIMove(currentWord, targetWord, difficulty, playerLadder)`:
`strategies[difficulty]` is a dynamic property lookup. An own key (one of
the four lowercase names) dispatches to its strategy, which returns a move.
Any other key continues the lookup on the prototype chain: a member of
`Object.prototype` is found there and called (see `callInherited`), while a
key found nowhere yields `undefined`, and calling `undefined` throws a
`TypeError`. -/
def selectAIMove (g : Graph) (c : PathCache) (currentWord targetWord : Word)
    (difficulty : String) (playerLadder : List Word) (rng : ℕ → ℚ) :
    Except JsError JsValue :=
  match alLookup (strategiesTable g c) difficulty with
  | some strategy =>
      .ok (.move (strategy currentWord targetWord playerLadder rng))
  | none =>
      if difficulty ∈ objectPrototypeKeys then
        callInherited currentWord difficulty
      else .error .typeError

theorem hcConsistent_nil : HCConsistent [] := by
  intro k v h
  simp [hcLookup] at h

theorem hcLookup_append (c c' : HeurCache) (k : Word × Word) :
    hcLookup (c ++ c') k =
      (hcLookup c k).or (hcLookup c' k) := by
  induction c with
  | nil => simp [hcLookup]
  | cons e rest ih =>
    by_cases h : e.1 = k <;> simp [hcLookup, h, ih]

theorem heuristicSt_val (c : HeurCache) (hc : HCConsistent c) (w1 w2 : Word) :
    (heuristicSt c w1 w2).1 = heuristic w1 w2 := by
  unfold heuristicSt
  cases h : hcLookup c (w1, w2) with
  | none => simp
  | some v => simpa using hc (w1, w2) v h

theorem heuristicSt_consistent (c : HeurCache) (hc : HCConsistent c)
    (w1 w2 : Word) : HCConsistent (heuristicSt c w1 w2).2 := by
  unfold heuristicSt
  cases h : hcLookup c (w1, w2) with
  | none =>
    intro k v hk
    simp only [hcLookup_append] at hk
    cases hl : hcLookup c k with
    | some u => rw [hl] at hk; exact hc k v (by simpa [hl] using hk)
    | none =>
      rw [hl] at hk
      simp [hcLookup] at hk
      obtain ⟨hkey, hv⟩ := hk
      subst hv
      rw [← hkey]
  | some v => exact hc

/-! ### Symmetry of the heuristic components -/

theorem hammingJs_symm (w1 w2 : Word) (h : w1.length = w2.length) :
    hammingJs w1 w2 = hammingJs w2 w1 := by
  unfold hammingJs
  rw [h]
  apply List.countP_congr
  intro i _
  simp only [decide_eq_true_eq]
  exact ne_comm

theorem levEntry_symm (w1 w2 : Word) (i j : ℕ) :
    levEntry w1 w2 i j = levEntry w2 w1 j i := by
  induction i, j using levEntry.induct w1 w2 with
  | case1 j => cases j <;> simp [levEntry]
  | case2 i =>
    show levEntry w1 w2 (i+1) 0 = levEntry w2 w1 0 (i+1)
    simp [levEntry]
  | case3 i j heq ih =>
    show levEntry w1 w2 (i+1) (j+1) = levEntry w2 w1 (j+1) (i+1)
    rw [levEntry, if_pos heq, levEntry, if_pos (Eq.symm heq), ih]
  | case4 i j hne ih1 ih2 ih3 =>
    show levEntry w1 w2 (i+1) (j+1) = levEntry w2 w1 (j+1) (i+1)
    rw [levEntry, if_neg hne, levEntry,
      if_neg (fun hc => hne (Eq.symm hc)), ih1, ih2, ih3]
    rw [min_comm (levEntry w2 w1 j (i + 1) + 1) (levEntry w2 w1 (j + 1) i + 1)]

theorem calculateLevenshtein_symm (w1 w2 : Word) :
    calculateLevenshtein w1 w2 = calculateLevenshtein w2 w1 :=
  levEntry_symm w1 w2 w2.length w1.length

theorem calculateCharFrequencyDifference_symm (w1 w2 : Word) :
    calculateCharFrequencyDifference w1 w2
      = calculateCharFrequencyDifference w2 w1 := by
  unfold calculateCharFrequencyDifference
  have hfg : (fun c => ((w1.count c : ℤ) - (w2.count c : ℤ)).natAbs)
      = (fun c => ((w2.count c : ℤ) - (w1.count c : ℤ)).natAbs) := by
    funext c
    rw [← Int.natAbs_neg, neg_sub]
  calc ((w1 ++ w2).dedup.map
        (fun c => ((w1.count c : ℤ) - (w2.count c : ℤ)).natAbs)).sum
      = ((w2 ++ w1).dedup.map
        (fun c => ((w1.count c : ℤ) - (w2.count c : ℤ)).natAbs)).sum :=
        (List.Perm.map _ (List.perm_append_comm.dedup)).sum_eq
    _ = ((w2 ++ w1).dedup.map
        (fun c => ((w2.count c : ℤ) - (w1.count c : ℤ)).natAbs)).sum := by
        rw [hfg]

theorem heuristic_symm (w1 w2 : Word) (h : w1.length = w2.length) :
    heuristic w1 w2 = heuristic w2 w1 := by
  unfold heuristic
  rw [hammingJs_symm w1 w2 h, calculateLevenshtein_symm,
    calculateCharFrequencyDifference_symm]

/-- C6: the heuristic estimate is symmetric: for equal-length words `a` and
`b`, both orderings evaluate to
`0.6*hamming(a,b) + 0.3*levenshtein(a,b) + 0.1*charFreqDiff(a,b)`, and this
is unaffected by the order in which the two orderings of the pair are
queried and cached (the cache stores exactly the values `heuristic`
computes, so a later query of either ordering, with or without the other
ordering cached first, returns the same value). -/
theorem heuristic_estimate_symmetric (a b : Word) (c : HeurCache)
    (h : a.length = b.length) (hc : HCConsistent c) :
    (heuristicSt c a b).1
        = 0.6 * (hammingJs a b : ℚ) + 0.3 * (calculateLevenshtein a b : ℚ)
          + 0.1 * (calculateCharFrequencyDifference a b : ℚ)
    ∧ (heuristicSt c b a).1 = (heuristicSt c a b).1
    ∧ (heuristicSt (heuristicSt c a b).2 b a).1 = (heuristicSt c a b).1
    ∧ (heuristicSt (heuristicSt c b a).2 a b).1 = (heuristicSt c a b).1 := by
  have hsymm : heuristic b a = heuristic a b := (heuristic_symm a b h).symm
  have h1 := heuristicSt_val c hc a b
  have h2 := heuristicSt_val c hc b a
  have h3 := heuristicSt_val _ (heuristicSt_consistent c hc a b) b a
  have h4 := heuristicSt_val _ (heuristicSt_consistent c hc b a) a b
  refine ⟨?_, ?_, ?_, ?_⟩
  · rw [h1]; unfold heuristic; ring
  · rw [h1, h2, hsymm]
  · rw [h1, h3, hsymm]
  · rw [h1, h4]

/-- Witness for C6 at `a = "ab"`, `b = "ba"`, empty cache. -/
theorem heuristic_estimate_symmetric_witness :
    (heuristicSt [] ['a','b'] ['b','a']).1
        = 0.6 * (hammingJs ['a','b'] ['b','a'] : ℚ)
          + 0.3 * (calculateLevenshtein ['a','b'] ['b','a'] : ℚ)
          + 0.1 * (calculateCharFrequencyDifference ['a','b'] ['b','a'] : ℚ)
    ∧ (heuristicSt [] ['b','a'] ['a','b']).1
        = (heuristicSt [] ['a','b'] ['b','a']).1
    ∧ (heuristicSt (heuristicSt [] ['a','b'] ['b','a']).2 ['b','a'] ['a','b']).1
        = (heuristicSt [] ['a','b'] ['b','a']).1
    ∧ (heuristicSt (heuristicSt [] ['b','a'] ['a','b']).2 ['a','b'] ['b','a']).1
        = (heuristicSt [] ['a','b'] ['b','a']).1 :=
  heuristic_estimate_symmetric ['a','b'] ['b','a'] [] (by decide) hcConsistent_nil

/-! ### C9: behaviour of `initialize` on malformed dictionaries -/

theorem processedWords_eq_nil (lines : List Word)
    (h : ∀ l ∈ lines, isAzWord (extractWord l) = false) :
    processedWords lines = [] := by
  unfold processedWords
  rw [List.filter_eq_nil_iff]
  intro w hw
  obtain ⟨l, hl, rfl⟩ := List.mem_map.mp hw
  simp [h l hl]

/-- C9 counterexample: feeding `initialize` lines none of which yields a
valid word (here `"1234"` and `"!?"`) completes normally and leaves exactly
the state of a legitimately empty dictionary — no failure of any kind is
signalled (the embedded `initialize` is a total function, mirroring the
fact that the source `initialize` throws on none of these inputs). -/
theorem initialize_malformed_indistinguishable :
    initializeState [['1','2','3','4'], ['!','?']] = initializeState []
    ∧ initializeState [['1','2','3','4'], ['!','?']] = ([], []) := by
  constructor <;> rfl

/-- C9 amended: when every input line fails to yield a valid word,
`initialize` completes successfully with the empty word set and empty
graph — the very state a legitimately empty dictionary produces — and
signals nothing; only an exception from `fetch`/`initialize` reaches the
error path of `loadWordList`, and this input raises none. -/
theorem initialize_malformed_silent (lines : List Word)
    (h : ∀ l ∈ lines, isAzWord (extractWord l) = false) :
    initializeState lines = ([], []) := by
  have hp := processedWords_eq_nil lines h
  unfold initializeState wordSetOf buildWordGraphOf lengthsOf
  rw [hp]
  rfl

/-- Witness for C9 (amended) at the single line `"1234"`. -/
theorem initialize_malformed_silent_witness :
    initializeState [['1','2','3','4']] = ([], []) :=
  initialize_malformed_silent [['1','2','3','4']] (by decide)

/-! ### C2: characterisation of the built word graph -/

theorem mem_setInsert {α : Type} [DecidableEq α] (l : List α) (a x : α) :
    x ∈ setInsert l a ↔ x ∈ l ∨ x = a := by
  unfold setInsert
  by_cases h : a ∈ l
  · simp only [if_pos h]
    constructor
    · exact Or.inl
    · rintro (hx | rfl) <;> assumption
  · simp [if_neg h]

theorem nodup_setInsert {α : Type} [DecidableEq α] (l : List α) (a : α)
    (h : l.Nodup) : (setInsert l a).Nodup := by
  unfold setInsert
  by_cases ha : a ∈ l
  · simpa [if_pos ha]
  · rw [if_neg ha, List.nodup_append]
    refine ⟨h, List.nodup_singleton a, ?_⟩
    intro x hx hxa
    rw [List.mem_singleton.mp hxa] at hx
    exact ha hx

theorem mem_foldl_setInsert {α : Type} [DecidableEq α] (l init : List α) (x : α) :
    x ∈ l.foldl setInsert init ↔ x ∈ init ∨ x ∈ l := by
  induction l generalizing init with
  | nil => simp
  | cons a l ih =>
    simp only [List.foldl_cons, ih, mem_setInsert, List.mem_cons]
    tauto

theorem nodup_foldl_setInsert {α : Type} [DecidableEq α] (l init : List α)
    (h : init.Nodup) : (l.foldl setInsert init).Nodup := by
  induction l generalizing init with
  | nil => exact h
  | cons a l ih => exact ih _ (nodup_setInsert _ _ h)

theorem mem_wordSetOf (lines : List Word) (x : Word) :
    x ∈ wordSetOf lines ↔ x ∈ processedWords lines := by
  unfold wordSetOf
  simp [mem_foldl_setInsert]

theorem mem_condFold {α : Type} [DecidableEq α] (p : α → Prop) [DecidablePred p]
    (l init : List α) (x : α) :
    x ∈ l.foldl (fun acc w => if p w then setInsert acc w else acc) init ↔
      x ∈ init ∨ (x ∈ l ∧ p x) := by
  induction l generalizing init with
  | nil => simp
  | cons a l ih =>
    simp only [List.foldl_cons]
    by_cases hp : p a
    · rw [if_pos hp]
      simp only [ih, mem_setInsert, List.mem_cons]
      constructor
      · rintro ((hx | rfl) | hx) <;> tauto
      · rintro (hx | ⟨(rfl | hx), hpx⟩) <;> tauto
    · rw [if_neg hp]
      simp only [ih, List.mem_cons]
      constructor
      · rintro (hx | hx) <;> tauto
      · rintro (hx | ⟨(rfl | hx), hpx⟩) <;> tauto

theorem nodup_condFold {α : Type} [DecidableEq α] (p : α → Prop) [DecidablePred p]
    (l init : List α) (h : init.Nodup) :
    (l.foldl (fun acc w => if p w then setInsert acc w else acc) init).Nodup := by
  induction l generalizing init with
  | nil => exact h
  | cons a l ih =>
    simp only [List.foldl_cons]
    by_cases hp : p a
    · rw [if_pos hp]; exact ih _ (nodup_setInsert _ _ h)
    · rw [if_neg hp]; exact ih _ h

theorem mem_wordsOfLength (lines : List Word) (L : ℕ) (x : Word) :
    x ∈ wordsOfLength lines L ↔ x ∈ processedWords lines ∧ x.length = L := by
  unfold wordsOfLength
  have h := mem_condFold (fun w : Word => w.length = L) (processedWords lines) [] x
  simp only [List.not_mem_nil, false_or] at h
  exact h

theorem nodup_wordsOfLength (lines : List Word) (L : ℕ) :
    (wordsOfLength lines L).Nodup :=
  nodup_condFold _ _ _ List.nodup_nil

theorem mem_foldl_setInsert_map {α β : Type} [DecidableEq β] (f : α → β)
    (l : List α) (init : List β) (x : β) :
    x ∈ l.foldl (fun acc w => setInsert acc (f w)) init ↔
      x ∈ init ∨ ∃ w ∈ l, f w = x := by
  induction l generalizing init with
  | nil => simp
  | cons a l ih =>
    simp only [List.foldl_cons, ih, mem_setInsert, List.mem_cons]
    constructor
    · rintro ((hx | rfl) | ⟨w, hw, rfl⟩)
      · exact Or.inl hx
      · exact Or.inr ⟨a, Or.inl rfl, rfl⟩
      · exact Or.inr ⟨w, Or.inr hw, rfl⟩
    · rintro (hx | ⟨w, (rfl | hw), rfl⟩)
      · exact Or.inl (Or.inl hx)
      · exact Or.inl (Or.inr rfl)
      · exact Or.inr ⟨w, hw, rfl⟩

theorem mem_lengthsOf (lines : List Word) (L : ℕ) :
    L ∈ lengthsOf lines ↔ ∃ w ∈ processedWords lines, w.length = L := by
  unfold lengthsOf
  rw [mem_foldl_setInsert_map]
  simp

theorem mem_processedWords_alpha (lines : List Word) (w : Word)
    (h : w ∈ processedWords lines) : isAzWord w = true := by
  unfold processedWords at h
  exact (List.mem_filter.mp h).2

theorem star_not_mem_of_isAz (w : Word) (h : isAzWord w = true) : '*' ∉ w := by
  intro hs
  unfold isAzWord at h
  have := (List.all_eq_true.mp (Bool.and_elim_right h)) '*' hs
  simp at this

theorem gLookup_append (g g' : Graph) (w : Word) :
    gLookup (g ++ g') w = (gLookup g w).or (gLookup g' w) := by
  induction g with
  | nil => simp [gLookup]
  | cons e rest ih =>
    obtain ⟨k, l⟩ := e
    by_cases h : k = w <;> simp [gLookup, h, ih]

theorem getNeighbors_gEnsure (g : Graph) (w x : Word) :
    getNeighbors (gEnsure g w) x = getNeighbors g x := by
  unfold gEnsure
  cases hl : gLookup g w with
  | some l => rfl
  | none =>
    unfold getNeighbors
    rw [gLookup_append]
    by_cases h : x = w
    · subst h
      rw [hl]
      simp [gLookup]
    · cases hx : gLookup g x <;> simp [gLookup, Ne.symm h]

theorem gLookup_gEnsure_isSome_self (g : Graph) (w : Word) :
    (gLookup (gEnsure g w) w).isSome := by
  unfold gEnsure
  cases hl : gLookup g w with
  | some l => simp [hl]
  | none => simp [gLookup_append, hl, gLookup]

theorem gLookup_gEnsure_isSome (g : Graph) (w x : Word)
    (h : (gLookup g x).isSome) : (gLookup (gEnsure g w) x).isSome := by
  unfold gEnsure
  cases hl : gLookup g w with
  | some l => exact h
  | none =>
    rw [gLookup_append]
    obtain ⟨y, hy⟩ := Option.isSome_iff_exists.mp h
    simp [hy]

theorem gLookup_gAddNbr_ne (g : Graph) (k v x : Word) (h : x ≠ k) :
    gLookup (gAddNbr g k v) x = gLookup g x := by
  induction g with
  | nil => rfl
  | cons e rest ih =>
    obtain ⟨q, l⟩ := e
    by_cases hq : q = k
    · subst hq
      simp only [gAddNbr, List.map_cons, if_pos rfl]
      rw [gLookup, gLookup, if_neg (fun hh => h hh.symm), if_neg (fun hh => h hh.symm)]
      exact ih
    · simp only [gAddNbr, List.map_cons, if_neg hq]
      rw [gLookup, gLookup]
      by_cases hx : q = x
      · simp [hx]
      · rw [if_neg hx, if_neg hx]
        exact ih

theorem gLookup_gAddNbr_self (g : Graph) (k v : Word) :
    gLookup (gAddNbr g k v) k = (gLookup g k).map (fun l => setInsert l v) := by
  induction g with
  | nil => rfl
  | cons e rest ih =>
    obtain ⟨q, l⟩ := e
    by_cases hq : q = k
    · subst hq
      unfold gAddNbr
      rw [List.map_cons, if_pos rfl]
      dsimp only
      rw [gLookup, if_pos rfl, gLookup, if_pos rfl]
      rfl
    · simp only [gAddNbr, List.map_cons, if_neg hq]
      rw [gLookup, gLookup, if_neg hq, if_neg hq]
      exact ih

theorem gLookup_gAddNbr_isSome (g : Graph) (k v x : Word) :
    (gLookup (gAddNbr g k v) x).isSome = (gLookup g x).isSome := by
  by_cases h : x = k
  · subst h
    rw [gLookup_gAddNbr_self]
    cases gLookup g x <;> rfl
  · rw [gLookup_gAddNbr_ne g k v x h]

theorem getNeighbors_gAddNbr (g : Graph) (k v x : Word)
    (hk : (gLookup g k).isSome) :
    getNeighbors (gAddNbr g k v) x =
      if x = k then setInsert (getNeighbors g k) v else getNeighbors g x := by
  by_cases h : x = k
  · subst h
    obtain ⟨l, hl⟩ := Option.isSome_iff_exists.mp hk
    rw [if_pos rfl]
    unfold getNeighbors
    rw [gLookup_gAddNbr_self, hl]
    rfl
  · rw [if_neg h]
    unfold getNeighbors
    rw [gLookup_gAddNbr_ne g k v x h]

theorem mem_getNeighbors_addEdge (g : Graph) (a b u v : Word) :
    v ∈ getNeighbors (addEdge g a b) u ↔
      v ∈ getNeighbors g u ∨ (u = a ∧ v = b) ∨ (u = b ∧ v = a) := by
  unfold addEdge
  have hA : (gLookup (gEnsure (gEnsure g a) b) a).isSome :=
    gLookup_gEnsure_isSome _ b a (gLookup_gEnsure_isSome_self g a)
  have hB : (gLookup (gEnsure (gEnsure g a) b) b).isSome :=
    gLookup_gEnsure_isSome_self _ b
  have hN1 : ∀ x, getNeighbors (gEnsure (gEnsure g a) b) x = getNeighbors g x := by
    intro x
    rw [getNeighbors_gEnsure, getNeighbors_gEnsure]
  have hB2 : (gLookup (gAddNbr (gEnsure (gEnsure g a) b) a b) b).isSome := by
    rw [gLookup_gAddNbr_isSome]
    exact hB
  rw [getNeighbors_gAddNbr _ b a u hB2]
  by_cases hub : u = b
  · rw [if_pos hub, getNeighbors_gAddNbr _ a b b hA]
    by_cases hba : b = a
    · rw [if_pos hba, hN1]
      subst hub
      subst hba
      simp only [mem_setInsert]
      tauto
    · rw [if_neg hba, hN1]
      subst hub
      simp only [mem_setInsert]
      tauto
  · rw [if_neg hub, getNeighbors_gAddNbr _ a b u hA]
    by_cases hua : u = a
    · rw [if_pos hua, hN1]
      subst hua
      simp only [mem_setInsert]
      tauto
    · rw [if_neg hua, hN1]
      tauto

theorem mem_addEdge_foldl (w : Word) (rest : List Word) (g : Graph) (u v : Word) :
    v ∈ getNeighbors (rest.foldl (fun g' r => addEdge g' w r) g) u ↔
      v ∈ getNeighbors g u ∨ ∃ r ∈ rest, (u = w ∧ v = r) ∨ (u = r ∧ v = w) := by
  induction rest generalizing g with
  | nil => simp
  | cons r rest ih =>
    simp only [List.foldl_cons, ih, mem_getNeighbors_addEdge, List.mem_cons]
    constructor
    · rintro ((hm | h) | ⟨r', hr', h⟩)
      · exact Or.inl hm
      · exact Or.inr ⟨r, Or.inl rfl, h⟩
      · exact Or.inr ⟨r', Or.inr hr', h⟩
    · rintro (hm | ⟨r', (rfl | hr'), h⟩)
      · exact Or.inl (Or.inl hm)
      · exact Or.inl (Or.inr h)
      · exact Or.inr ⟨r', hr', h⟩

theorem mem_addBucketEdges (l : List Word) (g : Graph) (u v : Word)
    (hl : l.Nodup) :
    v ∈ getNeighbors (addBucketEdges g l) u ↔
      v ∈ getNeighbors g u ∨ (u ∈ l ∧ v ∈ l ∧ u ≠ v) := by
  induction l generalizing g with
  | nil => simp [addBucketEdges]
  | cons w rest ih =>
    obtain ⟨hw, hrest⟩ := List.nodup_cons.mp hl
    rw [addBucketEdges, ih _ hrest, mem_addEdge_foldl]
    constructor
    · rintro ((hm | ⟨r, hr, hcase⟩) | ⟨hu, hv, huv⟩)
      · exact Or.inl hm
      · rcases hcase with ⟨rfl, rfl⟩ | ⟨rfl, rfl⟩
        · refine Or.inr ⟨List.mem_cons_self _ _, List.mem_cons_of_mem _ hr, ?_⟩
          rintro rfl
          exact hw hr
        · refine Or.inr ⟨List.mem_cons_of_mem _ hr, List.mem_cons_self _ _, ?_⟩
          rintro rfl
          exact hw hr
      · exact Or.inr ⟨List.mem_cons_of_mem _ hu, List.mem_cons_of_mem _ hv, huv⟩
    · rintro (hm | ⟨hu, hv, huv⟩)
      · exact Or.inl (Or.inl hm)
      · rcases List.mem_cons.mp hu with rfl | hu'
        · rcases List.mem_cons.mp hv with hvw | hv'
          · exact (huv hvw.symm).elim
          · exact Or.inl (Or.inr ⟨v, hv', Or.inl ⟨rfl, rfl⟩⟩)
        · rcases List.mem_cons.mp hv with rfl | hv'
          · exact Or.inl (Or.inr ⟨u, hu', Or.inr ⟨rfl, rfl⟩⟩)
          · exact Or.inr ⟨hu', hv', huv⟩

theorem bFind_bInsert_self (bs : List (Word × List Word)) (p w : Word) :
    bFind (bInsert bs p w) p = some (bLookup bs p ++ [w]) := by
  induction bs with
  | nil => simp [bInsert, bFind, bLookup]
  | cons e rest ih =>
    obtain ⟨q, ws⟩ := e
    by_cases hq : q = p
    · subst hq
      simp [bInsert, bFind, bLookup]
    · rw [bInsert, if_neg hq, bFind, if_neg hq, ih]
      unfold bLookup
      rw [bFind, if_neg hq]

theorem bFind_bInsert_ne (bs : List (Word × List Word)) (p w q : Word)
    (h : q ≠ p) : bFind (bInsert bs p w) q = bFind bs q := by
  induction bs with
  | nil => simp [bInsert, bFind, Ne.symm h]
  | cons e rest ih =>
    obtain ⟨k, ws⟩ := e
    by_cases hk : k = p
    · subst hk
      rw [bInsert, if_pos rfl, bFind, bFind, if_neg (fun hh => h hh.symm),
        if_neg (fun hh => h hh.symm)]
    · rw [bInsert, if_neg hk, bFind, bFind]
      by_cases hkq : k = q
      · rw [if_pos hkq, if_pos hkq]
      · rw [if_neg hkq, if_neg hkq, ih]

theorem bLookup_posFold (w : Word) (ps : List ℕ) (bs : List (Word × List Word))
    (p : Word) :
    bLookup (ps.foldl (fun bs' i => bInsert bs' (patternJs w i) w) bs) p
      = bLookup bs p ++ (ps.filter (fun i => patternJs w i = p)).map (fun _ => w) := by
  induction ps generalizing bs with
  | nil => simp
  | cons i ps ih =>
    simp only [List.foldl_cons, List.filter_cons]
    by_cases h : patternJs w i = p
    · rw [ih]
      have : bLookup (bInsert bs (patternJs w i) w) p = bLookup bs p ++ [w] := by
        rw [h]
        unfold bLookup
        rw [bFind_bInsert_self]
        rfl
      rw [this]
      simp [h]
    · rw [ih]
      have : bLookup (bInsert bs (patternJs w i) w) p = bLookup bs p := by
        unfold bLookup
        rw [bFind_bInsert_ne _ _ _ _ (fun hh => h hh.symm)]
      rw [this]
      simp [h]

theorem bLookup_buildBuckets_aux (ws : List Word) (bs : List (Word × List Word))
    (p : Word) :
    bLookup (ws.foldl
      (fun acc w =>
        (List.range w.length).foldl (fun bs' i => bInsert bs' (patternJs w i) w) acc)
      bs) p = bLookup bs p ++ bucketSpec ws p := by
  induction ws generalizing bs with
  | nil => simp [bucketSpec]
  | cons w ws ih =>
    rw [List.foldl_cons, ih, bLookup_posFold]
    unfold bucketSpec
    rw [List.flatMap_cons, List.append_assoc]

theorem bLookup_buildBuckets (ws : List Word) (p : Word) :
    bLookup (buildBuckets ws) p = bucketSpec ws p := by
  unfold buildBuckets
  rw [bLookup_buildBuckets_aux]
  rfl

theorem mem_bucketSpec (ws : List Word) (p x : Word) :
    x ∈ bucketSpec ws p ↔ x ∈ ws ∧ ∃ i, i < x.length ∧ patternJs x i = p := by
  unfold bucketSpec
  simp only [List.mem_flatMap, List.mem_map, List.mem_filter, List.mem_range]
  constructor
  · rintro ⟨w, hw, i, ⟨hi, hp⟩, rfl⟩
    exact ⟨hw, i, hi, of_decide_eq_true hp⟩
  · rintro ⟨hx, i, hi, hp⟩
    exact ⟨x, hx, i, ⟨hi, decide_eq_true hp⟩, rfl⟩

theorem patternJs_length (w : Word) (i : ℕ) (hi : i < w.length) :
    (patternJs w i).length = w.length := by
  unfold patternJs
  simp only [List.length_append, List.length_take, List.length_cons,
    List.length_drop]
  omega

theorem patternJs_getElem_self (w : Word) (i : ℕ) (hi : i ≤ w.length) :
    (patternJs w i)[i]? = some '*' := by
  unfold patternJs
  rw [List.getElem?_append_right (by simp [List.length_take])]
  simp [List.length_take, Nat.min_eq_left hi]

theorem patternJs_getElem_ne (w : Word) (i k : ℕ) (hi : i < w.length)
    (hk : k ≠ i) : (patternJs w i)[k]? = w[k]? := by
  unfold patternJs
  rcases Nat.lt_or_ge k i with hlt | hge
  · rw [List.getElem?_append_left (by rw [List.length_take]; omega),
      List.getElem?_take, if_pos hlt]
  · have hgt : i < k := by omega
    rw [List.getElem?_append_right (by rw [List.length_take]; omega)]
    have hlen : (w.take i).length = i := by rw [List.length_take]; omega
    rw [hlen]
    have hsub : k - i = (k - i - 1) + 1 := by omega
    rw [hsub, List.getElem?_cons_succ, List.getElem?_drop]
    congr 1
    omega

theorem patternJs_eq_pos (u v : Word) (i j : ℕ) (hi : i < u.length)
    (hj : j < v.length) (hv : '*' ∉ v)
    (h : patternJs u i = patternJs v j) : i = j := by
  by_contra hne
  have h1 := patternJs_getElem_self u i (le_of_lt hi)
  rw [h, patternJs_getElem_ne v j i hj hne] at h1
  have hlen : u.length = v.length := by
    have l1 := patternJs_length u i hi
    have l2 := patternJs_length v j hj
    rw [h, l2] at l1
    exact l1.symm
  have hi' : i < v.length := by omega
  rw [List.getElem?_eq_getElem hi'] at h1
  have hstar : v[i] = '*' := Option.some.inj h1
  exact hv (hstar ▸ List.getElem_mem hi')

theorem patternJs_parts_eq (u v : Word) (i : ℕ) (hiu : i < u.length)
    (hiv : i < v.length) (h : patternJs u i = patternJs v i) :
    u.take i = v.take i ∧ u.drop (i+1) = v.drop (i+1) := by
  unfold patternJs at h
  have hlen : (u.take i).length = (v.take i).length := by
    rw [List.length_take, List.length_take]
    omega
  obtain ⟨h1, h2⟩ := List.append_inj h hlen
  exact ⟨h1, (List.cons.inj h2).2⟩

theorem countP_range_single (n i : ℕ) (hi : i < n) :
    (List.range n).countP (fun k => k = i) = 1 := by
  induction n with
  | zero => omega
  | succ n ih =>
    rw [List.range_succ n, List.countP_append]
    by_cases h : i = n
    · subst h
      have h0 : (List.range i).countP (fun k => k = i) = 0 :=
        List.countP_eq_zero.mpr (by
          intro a ha
          simp only [List.mem_range] at ha
          simp only [decide_eq_true_eq]
          omega)
      rw [h0]
      simp
    · have hi' : i < n := by omega
      rw [ih hi']
      have h0 : ([n] : List ℕ).countP (fun k => k = i) = 0 :=
        List.countP_eq_zero.mpr (by
          intro a ha
          rw [List.mem_singleton.mp ha]
          simp only [decide_eq_true_eq]
          exact fun hh => h hh.symm)
      rw [h0]

theorem hammingJs_self (w : Word) : hammingJs w w = 0 := by
  unfold hammingJs
  exact List.countP_eq_zero.mpr (by intro a _; simp)

theorem shared_pattern_iff (u v : Word) (hv : '*' ∉ v) (hne : u ≠ v) :
    (∃ i j, i < u.length ∧ j < v.length ∧ patternJs u i = patternJs v j)
      ↔ u.length = v.length ∧ hammingJs u v = 1 := by
  constructor
  · rintro ⟨i, j, hi, hj, h⟩
    obtain rfl := patternJs_eq_pos u v i j hi hj hv h
    have hlen : u.length = v.length := by
      have l1 := patternJs_length u i hi
      have l2 := patternJs_length v i hj
      rw [h, l2] at l1
      exact l1.symm
    refine ⟨hlen, ?_⟩
    obtain ⟨htake, hdrop⟩ := patternJs_parts_eq u v i hi hj h
    have hagree : ∀ k, k ≠ i → u[k]? = v[k]? := by
      intro k hk
      rcases Nat.lt_or_ge k i with hlt | hge
      · have e1 : u[k]? = (u.take i)[k]? := by
          rw [List.getElem?_take, if_pos hlt]
        have e2 : v[k]? = (v.take i)[k]? := by
          rw [List.getElem?_take, if_pos hlt]
        rw [e1, e2, htake]
      · have hgt : i + 1 ≤ k := by omega
        have e1 : u[k]? = (u.drop (i+1))[k - (i+1)]? := by
          rw [List.getElem?_drop]
          congr 1
          omega
        have e2 : v[k]? = (v.drop (i+1))[k - (i+1)]? := by
          rw [List.getElem?_drop]
          congr 1
          omega
        rw [e1, e2, hdrop]
    have hdiff : u[i]? ≠ v[i]? := by
      intro heq
      apply hne
      apply List.ext_getElem?
      intro k
      by_cases hk : k = i
      · rw [hk]
        exact heq
      · exact hagree k hk
    unfold hammingJs
    have hcongr : (List.range u.length).countP (fun k => u[k]? ≠ v[k]?)
        = (List.range u.length).countP (fun k => k = i) := by
      apply List.countP_congr
      intro k _
      simp only [decide_eq_true_eq]
      constructor
      · intro hd
        by_contra hk
        exact hd (hagree k hk)
      · rintro rfl
        exact hdiff
    rw [hcongr]
    exact countP_range_single u.length i hi
  · rintro ⟨hlen, hham⟩
    unfold hammingJs at hham
    rw [List.countP_eq_length_filter] at hham
    obtain ⟨i, hfil⟩ := List.length_eq_one.mp hham
    have hi_mem : i ∈ (List.range u.length).filter
        (fun k => decide (u[k]? ≠ v[k]?)) := by
      rw [hfil]
      exact List.mem_singleton_self i
    have hi_lt : i < u.length := List.mem_range.mp (List.mem_of_mem_filter hi_mem)
    have hagree : ∀ k, k ≠ i → u[k]? = v[k]? := by
      intro k hk
      by_cases hkr : k < u.length
      · by_contra hne'
        have hkf : k ∈ (List.range u.length).filter
            (fun k => decide (u[k]? ≠ v[k]?)) :=
          List.mem_filter.mpr ⟨List.mem_range.mpr hkr, by simpa using hne'⟩
        rw [hfil] at hkf
        exact hk (List.mem_singleton.mp hkf)
      · have h1 : u[k]? = none := List.getElem?_eq_none (by omega)
        have h2 : v[k]? = none := List.getElem?_eq_none (by omega)
        rw [h1, h2]
    refine ⟨i, i, hi_lt, by omega, ?_⟩
    have htake : u.take i = v.take i := by
      apply List.ext_getElem?
      intro k
      rw [List.getElem?_take, List.getElem?_take]
      by_cases hk : k < i
      · rw [if_pos hk, if_pos hk]
        exact hagree k (by omega)
      · rw [if_neg hk, if_neg hk]
    have hdrop : u.drop (i+1) = v.drop (i+1) := by
      apply List.ext_getElem?
      intro k
      rw [List.getElem?_drop, List.getElem?_drop]
      exact hagree (i + 1 + k) (by omega)
    unfold patternJs
    rw [htake, hdrop]

theorem bInsert_cons_pos (q : Word) (ws : List Word)
    (rest : List (Word × List Word)) (w : Word) :
    bInsert ((q, ws) :: rest) q w = (q, ws ++ [w]) :: rest := by
  rw [bInsert, if_pos rfl]

theorem bInsert_cons_neg (q : Word) (ws : List Word)
    (rest : List (Word × List Word)) (p w : Word) (h : q ≠ p) :
    bInsert ((q, ws) :: rest) p w = (q, ws) :: bInsert rest p w := by
  rw [bInsert, if_neg h]

theorem mem_keys_bInsert (bs : List (Word × List Word)) (p w x : Word) :
    x ∈ (bInsert bs p w).map Prod.fst ↔ x ∈ bs.map Prod.fst ∨ x = p := by
  induction bs with
  | nil => simp [bInsert]
  | cons e rest ih =>
    obtain ⟨q, ws⟩ := e
    by_cases hq : q = p
    · subst hq
      rw [bInsert_cons_pos]
      simp only [List.map_cons, List.mem_cons]
      tauto
    · rw [bInsert_cons_neg _ _ _ _ _ hq]
      simp only [List.map_cons, List.mem_cons, ih]
      tauto

theorem nodup_keys_bInsert (bs : List (Word × List Word)) (p w : Word)
    (h : (bs.map Prod.fst).Nodup) : ((bInsert bs p w).map Prod.fst).Nodup := by
  induction bs with
  | nil => simp [bInsert]
  | cons e rest ih =>
    obtain ⟨q, ws⟩ := e
    rw [List.map_cons, List.nodup_cons] at h
    obtain ⟨hq_notin, hrest⟩ := h
    by_cases hq : q = p
    · subst hq
      rw [bInsert_cons_pos, List.map_cons, List.nodup_cons]
      exact ⟨hq_notin, hrest⟩
    · rw [bInsert_cons_neg _ _ _ _ _ hq, List.map_cons, List.nodup_cons]
      refine ⟨?_, ih hrest⟩
      rw [mem_keys_bInsert]
      rintro (hin | rfl)
      · exact hq_notin hin
      · exact hq rfl

theorem nodup_keys_buildBuckets (ws : List Word) :
    ((buildBuckets ws).map Prod.fst).Nodup := by
  unfold buildBuckets
  have haux : ∀ (l : List Word) (bs : List (Word × List Word)),
      (bs.map Prod.fst).Nodup →
      ((l.foldl (fun acc w =>
          (List.range w.length).foldl
            (fun bs' i => bInsert bs' (patternJs w i) w) acc) bs).map
        Prod.fst).Nodup := by
    intro l
    induction l with
    | nil => intro bs h; exact h
    | cons w l ih =>
      intro bs h
      rw [List.foldl_cons]
      apply ih
      have hpos : ∀ (ps : List ℕ) (bs' : List (Word × List Word)),
          (bs'.map Prod.fst).Nodup →
          ((ps.foldl (fun acc i => bInsert acc (patternJs w i) w) bs').map
            Prod.fst).Nodup := by
        intro ps
        induction ps with
        | nil => intro bs' h'; exact h'
        | cons i ps ihp =>
          intro bs' h'
          rw [List.foldl_cons]
          exact ihp _ (nodup_keys_bInsert bs' _ w h')
      exact hpos _ bs h
  exact haux ws [] List.nodup_nil

theorem bFind_of_mem (bs : List (Word × List Word)) (p : Word) (l : List Word)
    (hnd : (bs.map Prod.fst).Nodup) (h : (p, l) ∈ bs) : bFind bs p = some l := by
  induction bs with
  | nil => simp at h
  | cons e rest ih =>
    obtain ⟨q, ws⟩ := e
    simp only [List.map_cons, List.nodup_cons] at hnd
    obtain ⟨hq_notin, hrest⟩ := hnd
    rcases List.mem_cons.mp h with heq | hmem
    · obtain ⟨rfl, rfl⟩ := Prod.mk.inj heq.symm
      rw [bFind, if_pos rfl]
    · have hq : q ≠ p := by
        rintro rfl
        exact hq_notin (List.mem_map.mpr ⟨(q, l), hmem, rfl⟩)
      rw [bFind, if_neg hq]
      exact ih hrest hmem

theorem mem_of_bFind (bs : List (Word × List Word)) (p : Word) (l : List Word)
    (h : bFind bs p = some l) : (p, l) ∈ bs := by
  induction bs with
  | nil => simp [bFind] at h
  | cons e rest ih =>
    obtain ⟨q, ws⟩ := e
    by_cases hq : q = p
    · subst hq
      rw [bFind, if_pos rfl] at h
      obtain rfl := Option.some.inj h
      exact List.mem_cons_self _ _
    · rw [bFind, if_neg hq] at h
      exact List.mem_cons_of_mem _ (ih h)

theorem nodup_bucketSpec (ws : List Word) (p : Word) (hnd : ws.Nodup)
    (hstar : ∀ w ∈ ws, '*' ∉ w) : (bucketSpec ws p).Nodup := by
  induction ws with
  | nil => simp [bucketSpec]
  | cons w ws ih =>
    obtain ⟨hw, hnd'⟩ := List.nodup_cons.mp hnd
    unfold bucketSpec
    rw [List.flatMap_cons]
    have hinner : (((List.range w.length).filter
        (fun i => patternJs w i = p)).map (fun _ => w)).Nodup := by
      rcases hfe : (List.range w.length).filter
          (fun i => decide (patternJs w i = p)) with _ | ⟨i, rest⟩
      · simp [hfe]
      · rcases rest with _ | ⟨j, rest'⟩
        · simp [hfe]
        · exfalso
          have hnodup : ((List.range w.length).filter
              (fun i => decide (patternJs w i = p))).Nodup :=
            (List.nodup_range w.length).filter _
          rw [hfe] at hnodup
          have hij : i ≠ j := by
            rintro rfl
            exact (List.nodup_cons.mp hnodup).1 (List.mem_cons_self _ _)
          have hi_mem : i ∈ (List.range w.length).filter
              (fun i => decide (patternJs w i = p)) := by
            rw [hfe]
            exact List.mem_cons_self _ _
          have hj_mem : j ∈ (List.range w.length).filter
              (fun i => decide (patternJs w i = p)) := by
            rw [hfe]
            exact List.mem_cons_of_mem _ (List.mem_cons_self _ _)
          have hi_lt : i < w.length :=
            List.mem_range.mp (List.mem_of_mem_filter hi_mem)
          have hj_lt : j < w.length :=
            List.mem_range.mp (List.mem_of_mem_filter hj_mem)
          have hpi : patternJs w i = p :=
            of_decide_eq_true (List.mem_filter.mp hi_mem).2
          have hpj : patternJs w j = p :=
            of_decide_eq_true (List.mem_filter.mp hj_mem).2
          exact hij (patternJs_eq_pos w w i j hi_lt hj_lt
            (hstar w (List.mem_cons_self _ _)) (hpi.trans hpj.symm))
    refine hinner.append
      (ih hnd' (fun x hx => hstar x (List.mem_cons_of_mem _ hx))) ?_
    intro x hx hx'
    have hxw : x = w := by
      rcases List.mem_map.mp hx with ⟨_, _, rfl⟩
      rfl
    subst hxw
    exact hw ((mem_bucketSpec ws p x).mp hx').1

theorem mem_bucketsFold (bs : List (Word × List Word)) (g : Graph) (u v : Word)
    (hnd : ∀ b ∈ bs, b.2.Nodup) :
    v ∈ getNeighbors (bs.foldl (fun g' b => addBucketEdges g' b.2) g) u ↔
      v ∈ getNeighbors g u ∨ ∃ b ∈ bs, u ∈ b.2 ∧ v ∈ b.2 ∧ u ≠ v := by
  induction bs generalizing g with
  | nil => simp
  | cons b bs ih =>
    rw [List.foldl_cons, ih _ (fun b' hb' => hnd b' (List.mem_cons_of_mem _ hb')),
      mem_addBucketEdges _ _ _ _ (hnd b (List.mem_cons_self _ _))]
    constructor
    · rintro ((hm | hb) | ⟨b', hb', h⟩)
      · exact Or.inl hm
      · exact Or.inr ⟨b, List.mem_cons_self _ _, hb⟩
      · exact Or.inr ⟨b', List.mem_cons_of_mem _ hb', h⟩
    · rintro (hm | ⟨b', hb', h⟩)
      · exact Or.inl (Or.inl hm)
      · rcases List.mem_cons.mp hb' with rfl | hb''
        · exact Or.inl (Or.inr h)
        · exact Or.inr ⟨b', hb'', h⟩

theorem mem_graphForLength (g : Graph) (ws : List Word) (u v : Word)
    (hnd : ws.Nodup) (hstar : ∀ w ∈ ws, '*' ∉ w) :
    v ∈ getNeighbors (graphForLength g ws) u ↔
      v ∈ getNeighbors g u ∨
        (u ∈ ws ∧ v ∈ ws ∧ u.length = v.length ∧ hammingJs u v = 1) := by
  unfold graphForLength
  rw [mem_bucketsFold _ _ _ _ (fun b hb => by
    have hfind := bFind_of_mem _ _ _ (nodup_keys_buildBuckets ws) hb
    have hlk : b.2 = bucketSpec ws b.1 := by
      rw [← bLookup_buildBuckets]
      unfold bLookup
      rw [hfind]
      rfl
    rw [hlk]
    exact nodup_bucketSpec ws b.1 hnd hstar)]
  constructor
  · rintro (hm | ⟨b, hb, hu, hv, huv⟩)
    · exact Or.inl hm
    · have hfind := bFind_of_mem _ _ _ (nodup_keys_buildBuckets ws) hb
      have hlk : b.2 = bucketSpec ws b.1 := by
        rw [← bLookup_buildBuckets]
        unfold bLookup
        rw [hfind]
        rfl
      rw [hlk] at hu hv
      obtain ⟨huws, i, hi, hpi⟩ := (mem_bucketSpec ws b.1 u).mp hu
      obtain ⟨hvws, j, hj, hpj⟩ := (mem_bucketSpec ws b.1 v).mp hv
      have hsh := (shared_pattern_iff u v (hstar v hvws) huv).mp
        ⟨i, j, hi, hj, hpi.trans hpj.symm⟩
      exact Or.inr ⟨huws, hvws, hsh⟩
  · rintro (hm | ⟨huws, hvws, hlen, hham⟩)
    · exact Or.inl hm
    · have huv : u ≠ v := by
        rintro rfl
        rw [hammingJs_self] at hham
        omega
      obtain ⟨i, j, hi, hj, hp⟩ :=
        (shared_pattern_iff u v (hstar v hvws) huv).mpr ⟨hlen, hham⟩
      set p := patternJs u i with hpdef
      have humem : u ∈ bucketSpec ws p := (mem_bucketSpec ws p u).mpr
        ⟨huws, i, hi, rfl⟩
      have hvmem : v ∈ bucketSpec ws p := (mem_bucketSpec ws p v).mpr
        ⟨hvws, j, hj, hp.symm⟩
      cases hbf : bFind (buildBuckets ws) p with
      | none =>
        exfalso
        have : bucketSpec ws p = [] := by
          rw [← bLookup_buildBuckets]
          unfold bLookup
          rw [hbf]
          rfl
        rw [this] at humem
        exact List.not_mem_nil u humem
      | some l =>
        have hmem := mem_of_bFind _ _ _ hbf
        have hlk : l = bucketSpec ws p := by
          rw [← bLookup_buildBuckets]
          unfold bLookup
          rw [hbf]
          rfl
        refine Or.inr ⟨(p, l), hmem, ?_, ?_, huv⟩
        · rw [hlk]
          exact humem
        · rw [hlk]
          exact hvmem

theorem mem_classesFold (lines : List Word) (Ls : List ℕ) (g : Graph)
    (u v : Word) :
    v ∈ getNeighbors
        (Ls.foldl (fun g' L => graphForLength g' (wordsOfLength lines L)) g) u ↔
      v ∈ getNeighbors g u ∨ ∃ L ∈ Ls,
        u ∈ wordsOfLength lines L ∧ v ∈ wordsOfLength lines L ∧
          u.length = v.length ∧ hammingJs u v = 1 := by
  induction Ls generalizing g with
  | nil => simp
  | cons L Ls ih =>
    have hstar : ∀ w ∈ wordsOfLength lines L, '*' ∉ w := fun w hw =>
      star_not_mem_of_isAz w
        (mem_processedWords_alpha lines w ((mem_wordsOfLength lines L w).mp hw).1)
    rw [List.foldl_cons, ih,
      mem_graphForLength _ _ _ _ (nodup_wordsOfLength lines L) hstar]
    constructor
    · rintro ((hm | hL) | ⟨L', hL', h⟩)
      · exact Or.inl hm
      · exact Or.inr ⟨L, List.mem_cons_self _ _, hL⟩
      · exact Or.inr ⟨L', List.mem_cons_of_mem _ hL', h⟩
    · rintro (hm | ⟨L', hL', h⟩)
      · exact Or.inl (Or.inl hm)
      · rcases List.mem_cons.mp hL' with rfl | hL''
        · exact Or.inl (Or.inr h)
        · exact Or.inr ⟨L', hL'', h⟩

theorem mem_buildWordGraphOf (lines : List Word) (u v : Word) :
    v ∈ getNeighbors (buildWordGraphOf lines) u ↔
      u ∈ processedWords lines ∧ v ∈ processedWords lines ∧
        u.length = v.length ∧ hammingJs u v = 1 := by
  unfold buildWordGraphOf
  rw [mem_classesFold]
  have hnil : getNeighbors ([] : Graph) u = [] := rfl
  rw [hnil]
  simp only [List.not_mem_nil, false_or]
  constructor
  · rintro ⟨L, _, hu, hv, hlen, hham⟩
    exact ⟨((mem_wordsOfLength lines L u).mp hu).1,
      ((mem_wordsOfLength lines L v).mp hv).1, hlen, hham⟩
  · rintro ⟨hu, hv, hlen, hham⟩
    exact ⟨u.length, (mem_lengthsOf lines u.length).mpr ⟨u, hu, rfl⟩,
      (mem_wordsOfLength lines u.length u).mpr ⟨hu, rfl⟩,
      (mem_wordsOfLength lines u.length v).mpr ⟨hv, hlen.symm⟩, hlen, hham⟩

/-- C2: after `initialize(lines)` builds the graph, for dictionary words `u`
and `v`: `v ∈ neighbors(u)` iff `u` and `v` have equal length and differ in
exactly one character position; consequently the relation is symmetric and
no word is its own neighbor. -/
theorem wordGraph_edge_iff (lines : List Word) (u v : Word)
    (hu : u ∈ wordSetOf lines) (hv : v ∈ wordSetOf lines) :
    (v ∈ getNeighbors (buildWordGraphOf lines) u ↔
        u.length = v.length ∧ hammingJs u v = 1)
    ∧ (v ∈ getNeighbors (buildWordGraphOf lines) u ↔
        u ∈ getNeighbors (buildWordGraphOf lines) v)
    ∧ u ∉ getNeighbors (buildWordGraphOf lines) u := by
  have hu' := (mem_wordSetOf lines u).mp hu
  have hv' := (mem_wordSetOf lines v).mp hv
  refine ⟨?_, ?_, ?_⟩
  · rw [mem_buildWordGraphOf]
    tauto
  · rw [mem_buildWordGraphOf, mem_buildWordGraphOf]
    constructor
    · rintro ⟨_, _, hlen, hham⟩
      refine ⟨hv', hu', hlen.symm, ?_⟩
      rw [← hammingJs_symm u v hlen]
      exact hham
    · rintro ⟨_, _, hlen, hham⟩
      refine ⟨hu', hv', hlen.symm, ?_⟩
      rw [← hammingJs_symm v u hlen]
      exact hham
  · rw [mem_buildWordGraphOf]
    rintro ⟨_, _, _, hham⟩
    rw [hammingJs_self] at hham
    omega

/-- Witness for C2 on the dictionary `{cat, cot}` at `u = "cat"`,
`v = "cot"`. -/
theorem wordGraph_edge_iff_witness :
    (['c','o','t'] ∈ getNeighbors
        (buildWordGraphOf [['c','a','t'], ['c','o','t']]) ['c','a','t'] ↔
      (['c','a','t'] : Word).length = (['c','o','t'] : Word).length ∧
        hammingJs ['c','a','t'] ['c','o','t'] = 1)
    ∧ (['c','o','t'] ∈ getNeighbors
        (buildWordGraphOf [['c','a','t'], ['c','o','t']]) ['c','a','t'] ↔
      ['c','a','t'] ∈ getNeighbors
        (buildWordGraphOf [['c','a','t'], ['c','o','t']]) ['c','o','t'])
    ∧ ['c','a','t'] ∉ getNeighbors
        (buildWordGraphOf [['c','a','t'], ['c','o','t']]) ['c','a','t'] :=
  wordGraph_edge_iff [['c','a','t'], ['c','o','t']] ['c','a','t'] ['c','o','t']
    (by decide) (by decide)

/-! ### C7: mismatched lengths -/

/-- C7: with `start.length ≠ end.length` both pathfinders return the
absent no-path value at once — `findPath` without touching the cache or the
graph, `findPathBidirectional` without entering its loop (both embedded
functions are total, mirroring that the source raises no exception here). -/
theorem findPath_mismatched_lengths (g : Graph) (c : PathCache) (s e : Word)
    (useH : Bool) (fuel recFuel : ℕ) (h : s.length ≠ e.length) :
    findPathSt g c s e useH = (none, c)
    ∧ findPathBidirectional g s e fuel recFuel = some none := by
  constructor
  · unfold findPathSt
    rw [if_pos h]
  · unfold findPathBidirectional
    rw [if_pos h]

/-- Witness for C7 at `start = "cat"`, `end = "at"`. -/
theorem findPath_mismatched_lengths_witness :
    findPathSt [] [] ['c','a','t'] ['a','t'] true = (none, [])
    ∧ findPathBidirectional [] ['c','a','t'] ['a','t'] 5 5 = some none :=
  findPath_mismatched_lengths [] [] ['c','a','t'] ['a','t'] true 5 5 (by decide)

/-! ### C3: cache behaviour of the pathfinders -/

theorem alLookup_alSet_self {κ β : Type} [DecidableEq κ]
    (l : List (κ × β)) (k : κ) (v : β) : alLookup (alSet l k v) k = some v := by
  induction l with
  | nil => simp [alSet, alLookup]
  | cons e rest ih =>
    obtain ⟨q, u⟩ := e
    by_cases hq : q = k
    · subst hq
      rw [alSet, if_pos rfl, alLookup, if_pos rfl]
    · rw [alSet, if_neg hq, alLookup, if_neg hq]
      exact ih

/-- C3 counterexample: on the dictionary `{cat, dog}` no ladder joins
`"cat"` to `"dog"`; `findPath` returns the no-path value yet stores
nothing — afterwards the cache is still empty, indistinguishable from the
pair never having been computed (and `findPathBidirectional` takes no part
in the cache at all, as its embedding shows by having no cache argument). -/
theorem findPath_noPath_not_cached :
    (findPathSt (buildWordGraphOf [['c','a','t'], ['d','o','g']]) []
        ['c','a','t'] ['d','o','g'] true).1 = none
    ∧ (findPathSt (buildWordGraphOf [['c','a','t'], ['d','o','g']]) []
        ['c','a','t'] ['d','o','g'] true).2 = [] := by
  constructor <;> rfl

/-- C3 amended: `findPath` caches only successful searches, keyed by the
ordered `(start, end)` pair: when it returns no path the cache is unchanged
(a later identical query re-runs the search), and on a returned path the
cache holds that path under the ordered key — except for the trivial
`start = end` result, which is returned without being cached.
`findPathBidirectional` never reads or writes the cache. -/
theorem findPath_cache_behavior (g : Graph) (c : PathCache) (s e : Word)
    (useH : Bool) :
    ((findPathSt g c s e useH).1 = none → (findPathSt g c s e useH).2 = c)
    ∧ (∀ p, (findPathSt g c s e useH).1 = some p →
        alLookup (findPathSt g c s e useH).2 (s, e) = some p ∨ s = e) := by
  unfold findPathSt
  by_cases h1 : s.length ≠ e.length
  · rw [if_pos h1]
    exact ⟨fun _ => rfl, fun p hp => by simp at hp⟩
  · rw [if_neg h1]
    by_cases h2 : s = e
    · rw [if_pos h2]
      exact ⟨fun hp => by simp at hp, fun p _ => Or.inr h2⟩
    · rw [if_neg h2]
      cases hcl : alLookup c (s, e) with
      | some p0 =>
        refine ⟨fun hp => by simp at hp, fun p hp => ?_⟩
        obtain rfl := Option.some.inj hp
        exact Or.inl hcl
      | none =>
        cases hse : aStarSearch g s e useH with
        | some path =>
          refine ⟨fun hp => by simp at hp, fun p hp => ?_⟩
          obtain rfl := Option.some.inj hp
          exact Or.inl (alLookup_alSet_self c (s, e) _)
        | none =>
          exact ⟨fun _ => rfl, fun p hp => by simp at hp⟩

/-- Witness for C3 (amended) on the `{cat, dog}` no-path query. -/
theorem findPath_cache_behavior_witness :
    (findPathSt (buildWordGraphOf [['c','a','t'], ['d','o','g']]) []
        ['c','a','t'] ['d','o','g'] true).2 = [] :=
  (findPath_cache_behavior (buildWordGraphOf [['c','a','t'], ['d','o','g']]) []
    ['c','a','t'] ['d','o','g'] true).1 (by rfl)

/-! ### C1: `findPath` versus `findPathBidirectional` -/

theorem walkForward_none (fp : List (Word × Word)) (start : Word)
    (acc : List Word) : ∀ fuel, walkForward fp start none acc fuel = none := by
  intro fuel
  induction fuel with
  | zero => rfl
  | succ n ih =>
    rw [walkForward, if_neg (by simp)]
    exact ih

theorem reconBidi_no_forward_parent (meeting start endW : Word)
    (bp : List (Word × Word)) (hne : meeting ≠ start) :
    ∀ recFuel, reconBidi [] bp meeting start endW recFuel = none := by
  intro recFuel
  cases recFuel with
  | zero => rfl
  | succ m =>
    unfold reconBidi
    rw [walkForward, if_neg (by simpa using hne)]
    have halk : alLookup ([] : List (Word × Word)) meeting = none := rfl
    rw [halk, walkForward_none]

/-- C1 (code bug): on the dictionary `{cat, cot, cog}` `findPath` returns
the unique shortest ladder `[cat, cot, cog]` (3 words), but
`findPathBidirectional` returns `[cat, cot]` — a 2-word sequence that does
not even end at the target — because the meeting word's backward parent was
never recorded when the early return fires.  Worse, on the adjacent pair
`{cat, cot}` the meeting word has no forward parent either and the
reconstruction loop never terminates (`none` for every fuel).  So the two
pathfinders do not agree on a shortest-path length for solvable pairs. -/
theorem findPathBidirectional_code_bug :
    (findPathVal (buildWordGraphOf [['c','a','t'], ['c','o','t'], ['c','o','g']])
        [] ['c','a','t'] ['c','o','g']
      = some [['c','a','t'], ['c','o','t'], ['c','o','g']])
    ∧ (findPathBidirectional
        (buildWordGraphOf [['c','a','t'], ['c','o','t'], ['c','o','g']])
        ['c','a','t'] ['c','o','g'] 10 10
      = some (some [['c','a','t'], ['c','o','t']]))
    ∧ (∀ fuel recFuel,
        findPathBidirectional (buildWordGraphOf [['c','a','t'], ['c','o','t']])
          ['c','a','t'] ['c','o','t'] fuel recFuel = none) := by
  refine ⟨by rfl, by rfl, ?_⟩
  intro fuel recFuel
  cases fuel with
  | zero => rfl
  | succ n =>
    unfold findPathBidirectional
    rw [if_neg (by decide), if_neg (by decide)]
    rw [bidiLoop, if_neg (by decide)]
    show (match reconBidi [] [] ['c','o','t'] ['c','a','t'] ['c','o','t']
        recFuel with
      | some p => some (some p)
      | none => none) = (none : Option (Option (List Word)))
    rw [reconBidi_no_forward_parent _ _ _ _ (by decide) recFuel]

/-! ### C4: the difficulty formula -/

/-- C4 counterexample: on the dictionary `{ab, aa, ba}` with the returned
path `[ab, aa, ba]`, the source computes `3*10 + heuristic(ab,ba)*5 +
(10 - 4/3) = 143/3`, while the claimed formula with the true Hamming
distance (2) gives `146/3`. -/
theorem calculateDifficulty_counterexample :
    calculateDifficulty (buildWordGraphOf [['a','b'], ['a','a'], ['b','a']]) []
        ['a','b'] ['b','a'] = ((143/3 : ℚ) : WithTop ℚ)
    ∧ difficultySpecC4 (buildWordGraphOf [['a','b'], ['a','a'], ['b','a']]) []
        ['a','b'] ['b','a'] = ((146/3 : ℚ) : WithTop ℚ)
    ∧ calculateDifficulty (buildWordGraphOf [['a','b'], ['a','a'], ['b','a']]) []
        ['a','b'] ['b','a']
      ≠ difficultySpecC4 (buildWordGraphOf [['a','b'], ['a','a'], ['b','a']]) []
        ['a','b'] ['b','a'] := by
  have hham : hammingJs ['a','b'] ['b','a'] = 2 := by rfl
  have hlev : calculateLevenshtein ['a','b'] ['b','a'] = 2 := by
    simp [calculateLevenshtein, levEntry]
  have hcfd : calculateCharFrequencyDifference ['a','b'] ['b','a'] = 0 := by rfl
  have hheur : heuristic ['a','b'] ['b','a'] = 9/5 := by
    unfold heuristic
    rw [hham, hlev, hcfd]
    norm_num
  have hpath : findPathVal (buildWordGraphOf [['a','b'], ['a','a'], ['b','a']])
      [] ['a','b'] ['b','a'] = some [['a','b'], ['a','a'], ['b','a']] := by rfl
  have hn1 : (getNeighbors (buildWordGraphOf [['a','b'], ['a','a'], ['b','a']])
      ['a','b']).length = 1 := by rfl
  have hn2 : (getNeighbors (buildWordGraphOf [['a','b'], ['a','a'], ['b','a']])
      ['a','a']).length = 2 := by rfl
  have hn3 : (getNeighbors (buildWordGraphOf [['a','b'], ['a','a'], ['b','a']])
      ['b','a']).length = 1 := by rfl
  have h1 : calculateDifficulty
      (buildWordGraphOf [['a','b'], ['a','a'], ['b','a']]) []
      ['a','b'] ['b','a'] = ((143/3 : ℚ) : WithTop ℚ) := by
    unfold calculateDifficulty
    rw [hpath]
    dsimp only
    rw [hheur]
    refine congrArg _ ?_
    simp only [List.map_cons, List.map_nil, List.sum_cons, List.sum_nil,
      List.length_cons, List.length_nil, hn1, hn2, hn3]
    norm_num
  have h2 : difficultySpecC4
      (buildWordGraphOf [['a','b'], ['a','a'], ['b','a']]) []
      ['a','b'] ['b','a'] = ((146/3 : ℚ) : WithTop ℚ) := by
    unfold difficultySpecC4
    rw [hpath]
    dsimp only
    rw [hham]
    refine congrArg _ ?_
    simp only [List.map_cons, List.map_nil, List.sum_cons, List.sum_nil,
      List.length_cons, List.length_nil, hn1, hn2, hn3]
    norm_num
  refine ⟨h1, h2, ?_⟩
  rw [h1, h2]
  intro heq
  have hq : (143/3 : ℚ) = 146/3 := by exact_mod_cast heq
  norm_num at hq

/-- C4 amended: whenever `findPath(start, end)` returns a path,
`calculateDifficulty(start, end)` equals `pathLength*10 +
heuristic(start,end)*5 + (10 - averageNeighborCountAlongPath)`, where the
middle term uses the composite estimate
`0.6*hamming + 0.3*levenshtein + 0.1*charFreqDiff` (the source's
`hammingDistance` variable), not the bare Hamming count. -/
theorem calculateDifficulty_formula (g : Graph) (c : PathCache) (s e : Word)
    (p : List Word) (h : findPathVal g c s e = some p) :
    calculateDifficulty g c s e =
      (((p.length : ℚ) * 10
        + (0.6 * (hammingJs s e : ℚ) + 0.3 * (calculateLevenshtein s e : ℚ)
            + 0.1 * (calculateCharFrequencyDifference s e : ℚ)) * 5
        + (10 - ((p.map (fun w => ((getNeighbors g w).length : ℚ))).sum)
            / p.length) : ℚ) : WithTop ℚ) := by
  unfold calculateDifficulty
  rw [h]
  dsimp only
  refine congrArg _ ?_
  unfold heuristic
  ring

/-- Witness for C4 (amended) on the dictionary `{ab, aa, ba}`. -/
theorem calculateDifficulty_formula_witness :
    calculateDifficulty (buildWordGraphOf [['a','b'], ['a','a'], ['b','a']]) []
        ['a','b'] ['b','a'] =
      ((((3 : ℚ)) * 10
        + (0.6 * (hammingJs ['a','b'] ['b','a'] : ℚ)
            + 0.3 * (calculateLevenshtein ['a','b'] ['b','a'] : ℚ)
            + 0.1 * (calculateCharFrequencyDifference ['a','b'] ['b','a'] : ℚ)) * 5
        + (10 - (([['a','b'], ['a','a'], ['b','a']].map
            (fun w => ((getNeighbors (buildWordGraphOf
              [['a','b'], ['a','a'], ['b','a']]) w).length : ℚ))).sum)
            / (3 : ℚ)) : ℚ) : WithTop ℚ) := by
  have h : findPathVal (buildWordGraphOf [['a','b'], ['a','a'], ['b','a']]) []
      ['a','b'] ['b','a'] = some [['a','b'], ['a','a'], ['b','a']] := by rfl
  have := calculateDifficulty_formula
    (buildWordGraphOf [['a','b'], ['a','a'], ['b','a']]) []
    ['a','b'] ['b','a'] [['a','b'], ['a','a'], ['b','a']] h
  simpa using this

theorem cacheConsistent_nil (g : Graph) : CacheConsistent g [] := by
  intro k p h
  simp [alLookup] at h

theorem alLookup_alSet_ne {κ β : Type} [DecidableEq κ]
    (l : List (κ × β)) (k k' : κ) (v : β) (h : k' ≠ k) :
    alLookup (alSet l k v) k' = alLookup l k' := by
  induction l with
  | nil => simp [alSet, alLookup, Ne.symm h]
  | cons e rest ih =>
    obtain ⟨q, u⟩ := e
    by_cases hq : q = k
    · subst hq
      rw [alSet, if_pos rfl, alLookup, alLookup,
        if_neg (fun hh => h hh.symm), if_neg (fun hh => h hh.symm)]
    · rw [alSet, if_neg hq, alLookup, alLookup]
      by_cases hq' : q = k'
      · rw [if_pos hq', if_pos hq']
      · rw [if_neg hq', if_neg hq', ih]

theorem findPathSt_preserves_consistent (g : Graph) (c : PathCache)
    (s e : Word) (h : CacheConsistent g c) :
    CacheConsistent g (findPathSt g c s e true).2 := by
  unfold findPathSt
  by_cases h1 : s.length ≠ e.length
  · rw [if_pos h1]; exact h
  · rw [if_neg h1]
    by_cases h2 : s = e
    · rw [if_pos h2]; exact h
    · rw [if_neg h2]
      cases hcl : alLookup c (s, e) with
      | some p0 => exact h
      | none =>
        cases hse : aStarSearch g s e true with
        | some path =>
          intro k p hk
          by_cases hkey : k = (s, e)
          · subst hkey
            rw [alLookup_alSet_self] at hk
            obtain rfl := Option.some.inj hk
            exact hse
          · rw [alLookup_alSet_ne c (s, e) k path hkey] at hk
            exact h k p hk
        | none => exact h

theorem findPathVal_consistent (g : Graph) (c : PathCache) (s e : Word)
    (h : CacheConsistent g c) :
    findPathVal g c s e = findPathVal g [] s e := by
  unfold findPathVal findPathSt
  by_cases h1 : s.length ≠ e.length
  · rw [if_pos h1, if_pos h1]
  · rw [if_neg h1, if_neg h1]
    by_cases h2 : s = e
    · rw [if_pos h2, if_pos h2]
    · rw [if_neg h2, if_neg h2]
      have hnil : alLookup ([] : PathCache) (s, e) = none := rfl
      rw [hnil]
      cases hcl : alLookup c (s, e) with
      | some p0 =>
        have hs := h (s, e) p0 hcl
        simp only at hs
        rw [hs]
      | none => cases aStarSearch g s e true <;> rfl

theorem mem_getD_mod (ws : List Word) (hws : ws ≠ []) (n : ℕ) :
    ws.getD (n % ws.length) [] ∈ ws := by
  have hlen : 0 < ws.length := List.length_pos.mpr hws
  have hidx : n % ws.length < ws.length := Nat.mod_lt _ hlen
  rw [List.getD_eq_getElem ws [] hidx]
  exact List.getElem_mem hidx

theorem genLoop_some (g : Graph) (c : PathCache) (ws : List Word)
    (draws : ℕ → ℕ × ℕ) (hws : ws ≠ []) :
    ∀ remaining i s e len, genLoop g c ws draws remaining i = some (s, e, len) →
      s ≠ e ∧ s ∈ ws ∧ e ∈ ws ∧
        ∃ p, findPathVal g c s e = some p ∧ p.length = len ∧
          2 < len ∧ len < 8 := by
  intro remaining
  induction remaining with
  | zero => intro i s e len h; simp [genLoop] at h
  | succ rem ih =>
    intro i s e len h
    rw [genLoop] at h
    by_cases hne : ws.getD ((draws i).1 % ws.length) []
        ≠ ws.getD ((draws i).2 % ws.length) []
    · rw [if_pos hne] at h
      cases hfp : findPathVal g c (ws.getD ((draws i).1 % ws.length) [])
          (ws.getD ((draws i).2 % ws.length) []) with
      | some p =>
        rw [hfp] at h
        dsimp only at h
        by_cases hlen : 2 < p.length ∧ p.length < 8
        · rw [if_pos hlen] at h
          have h' := Option.some.inj h
          rw [Prod.mk.injEq, Prod.mk.injEq] at h'
          obtain ⟨rfl, rfl, rfl⟩ := h'
          exact ⟨hne, mem_getD_mod ws hws _, mem_getD_mod ws hws _,
            p, hfp, rfl, hlen.1, hlen.2⟩
        · rw [if_neg hlen] at h
          exact ih (i + 1) s e len h
      | none =>
        rw [hfp] at h
        dsimp only at h
        exact ih (i + 1) s e len h
    · rw [if_neg hne] at h
      exact ih (i + 1) s e len h

theorem genLoop_draws_agree (g : Graph) (c : PathCache) (ws : List Word)
    (draws draws' : ℕ → ℕ × ℕ) :
    ∀ remaining i, remaining + i ≤ 100 → (∀ j < 100, draws j = draws' j) →
      genLoop g c ws draws remaining i = genLoop g c ws draws' remaining i := by
  intro remaining
  induction remaining with
  | zero => intro i _ _; rfl
  | succ rem ih =>
    intro i hle hagree
    have hi : i < 100 := by omega
    rw [genLoop, genLoop, hagree i hi]
    have hrec := ih (i + 1) (by omega) hagree
    by_cases hne : ws.getD ((draws' i).1 % ws.length) []
        ≠ ws.getD ((draws' i).2 % ws.length) []
    · rw [if_pos hne, if_pos hne]
      cases hfp : findPathVal g c (ws.getD ((draws' i).1 % ws.length) [])
          (ws.getD ((draws' i).2 % ws.length) []) with
      | some p =>
        dsimp only
        by_cases hlen : 2 < p.length ∧ p.length < 8
        · rw [if_pos hlen, if_pos hlen]
        · rw [if_neg hlen, if_neg hlen, hrec]
      | none =>
        dsimp only
        rw [hrec]
    · rw [if_neg hne, if_neg hne, hrec]

/-- C8: `generateRandomPair(L)` returns `none` immediately when the
dictionary holds fewer than two words of length `L`; any returned triple
`{start, end, optimalLength}` has `start ≠ end`, both drawn from the
length-`L` bucket, and a `findPath` path of length strictly between 2 and 8
whose length is `optimalLength`; and the whole computation is determined by
the first 100 random draws (the attempt budget), so it always terminates
within 100 sampling attempts. -/
theorem generateRandomPair_spec (lines : List Word) (c : PathCache)
    (draws draws' : ℕ → ℕ × ℕ) (L : ℕ) :
    ((wordsOfLength lines L).length < 2 →
      generateRandomPair lines c draws L = none)
    ∧ (∀ s e len, generateRandomPair lines c draws L = some (s, e, len) →
        s ≠ e ∧ s ∈ wordsOfLength lines L ∧ e ∈ wordsOfLength lines L ∧
          ∃ p, findPathVal (buildWordGraphOf lines) c s e = some p ∧
            p.length = len ∧ 2 < len ∧ len < 8)
    ∧ ((∀ j < 100, draws j = draws' j) →
        generateRandomPair lines c draws L = generateRandomPair lines c draws' L) := by
  refine ⟨?_, ?_, ?_⟩
  · intro h
    unfold generateRandomPair
    rw [if_pos h]
  · intro s e len h
    unfold generateRandomPair at h
    by_cases hlt : (wordsOfLength lines L).length < 2
    · rw [if_pos hlt] at h
      simp at h
    · rw [if_neg hlt] at h
      have hws : wordsOfLength lines L ≠ [] := by
        intro hnil
        rw [hnil] at hlt
        simp at hlt
      exact genLoop_some _ _ _ _ hws 100 0 s e len h
  · intro hagree
    unfold generateRandomPair
    by_cases hlt : (wordsOfLength lines L).length < 2
    · rw [if_pos hlt, if_pos hlt]
    · rw [if_neg hlt, if_neg hlt]
      exact genLoop_draws_agree _ _ _ _ _ 100 0 (by omega) hagree

/-- Witness for C8 on the dictionary `{cat, cot, cog, dog}` with draws
always picking indices `(0, 3)`: the pair `(cat, dog)` with optimal length
4 is returned and satisfies every stated property. -/
theorem generateRandomPair_spec_witness :
    ['c','a','t'] ≠ ['d','o','g']
    ∧ ['c','a','t'] ∈ wordsOfLength
        [['c','a','t'], ['c','o','t'], ['c','o','g'], ['d','o','g']] 3
    ∧ ['d','o','g'] ∈ wordsOfLength
        [['c','a','t'], ['c','o','t'], ['c','o','g'], ['d','o','g']] 3
    ∧ ∃ p, findPathVal (buildWordGraphOf
        [['c','a','t'], ['c','o','t'], ['c','o','g'], ['d','o','g']]) []
        ['c','a','t'] ['d','o','g'] = some p ∧
      p.length = 4 ∧ 2 < 4 ∧ 4 < 8 :=
  (generateRandomPair_spec
    [['c','a','t'], ['c','o','t'], ['c','o','g'], ['d','o','g']] []
    (fun _ => (0, 3)) (fun _ => (0, 3)) 3).2.1
    ['c','a','t'] ['d','o','g'] 4 (by rfl)

theorem failSoft_refl (r alpha beta : Score) : FailSoft r r alpha beta :=
  ⟨fun h => h, fun h => h, fun _ _ => rfl⟩

theorem ite_lt_max {α : Type} [LinearOrder α] (a b : α) :
    (if a < b then b else a) = max a b := by
  rcases le_or_lt b a with h | h
  · rw [if_neg (not_lt.mpr h), max_eq_left h]
  · rw [if_pos h, max_eq_right (le_of_lt h)]

theorem ite_lt_min {α : Type} [LinearOrder α] (a b : α) :
    (if a < b then a else b) = min b a := by
  rcases le_or_lt a b with h | h
  · rcases eq_or_lt_of_le h with rfl | h'
    · simp
    · rw [if_pos h', min_eq_right (le_of_lt h')]
  · rw [if_neg (not_lt.mpr (le_of_lt h)), min_eq_left (le_of_lt h)]

theorem foldl_max_eq {α : Type} [LinearOrder α] [OrderBot α]
    (l : List α) (a : α) : l.foldl max a = max a (l.foldl max ⊥) := by
  induction l generalizing a with
  | nil => exact (max_eq_left bot_le).symm
  | cons b l ih =>
    simp only [List.foldl_cons]
    rw [ih (max a b), ih (max ⊥ b), max_eq_right bot_le, max_assoc]

theorem foldl_min_eq {α : Type} [LinearOrder α] [OrderTop α]
    (l : List α) (a : α) : l.foldl min a = min a (l.foldl min ⊤) := by
  induction l generalizing a with
  | nil => exact (min_eq_left le_top).symm
  | cons b l ih =>
    simp only [List.foldl_cons]
    rw [ih (min a b), ih (min ⊤ b), min_eq_right le_top, min_assoc]

theorem maxLoop_spec (g : Graph) (tgt : Word) (eval : Word → Score) (d : ℕ)
    (ih : ∀ cur alpha beta, alpha < beta →
      FailSoft ((minimax g tgt eval d cur alpha beta false).1)
        (minimaxBF g tgt eval d cur false) alpha beta) :
    ∀ (l : List Word) (maxS : Score) (best : Option Word)
      (alpha0 alpha beta : Score), alpha = max alpha0 maxS → alpha < beta →
      FailSoft ((maxLoop g tgt eval d l maxS best alpha beta).1)
        (max maxS
          ((l.map (fun n => minimaxBF g tgt eval d n false)).foldl max ⊥))
        alpha0 beta := by
  intro l
  induction l with
  | nil =>
    intro maxS best alpha0 alpha beta halpha hab
    rw [maxLoop]
    simp only [List.map_nil, List.foldl_nil]
    rw [max_eq_left bot_le]
    exact failSoft_refl maxS alpha0 beta
  | cons n rest ihl =>
    intro maxS best alpha0 alpha beta halpha hab
    have halpha0 : alpha0 ≤ alpha := halpha ▸ le_max_left alpha0 maxS
    have hmaxSalpha : maxS ≤ alpha := halpha ▸ le_max_right alpha0 maxS
    set s1 := (minimax g tgt eval d n alpha beta false).1 with hs1def
    set v1 := minimaxBF g tgt eval d n false with hv1def
    set Wrest := ((rest.map
      (fun n => minimaxBF g tgt eval d n false)).foldl max ⊥) with hWdef
    have hW : (((n :: rest).map
        (fun n => minimaxBF g tgt eval d n false)).foldl max ⊥)
        = max v1 Wrest := by
      simp only [List.map_cons, List.foldl_cons]
      rw [foldl_max_eq, max_eq_right bot_le]
    rw [hW, maxLoop]
    simp only [← hs1def, ite_lt_max]
    have hFS1 := ih n alpha beta hab
    rw [← hs1def, ← hv1def] at hFS1
    by_cases hbr : beta ≤ max alpha s1
    · rw [if_pos hbr]
      have hbs1 : beta ≤ s1 := by
        rcases le_max_iff.mp hbr with h | h
        · exact absurd (lt_of_lt_of_le hab h) (lt_irrefl alpha)
        · exact h
      have hbv1 : beta ≤ v1 := hFS1.2.1 hbs1
      refine ⟨?_, ?_, ?_⟩
      · intro hle
        exfalso
        have h1 : beta ≤ alpha0 :=
          le_trans hbs1 (le_trans (le_max_right maxS s1) hle)
        exact absurd (lt_of_le_of_lt (le_trans h1 halpha0) hab)
          (lt_irrefl beta)
      · intro _
        exact le_trans hbv1 (le_trans (le_max_left v1 Wrest)
          (le_max_right maxS (max v1 Wrest)))
      · intro _ h2
        exact absurd (lt_of_le_of_lt
          (le_trans hbs1 (le_max_right maxS s1)) h2) (lt_irrefl beta)
    · rw [if_neg hbr]
      have hbr' : max alpha s1 < beta := not_le.mp hbr
      have halpha' : max alpha s1 = max alpha0 (max maxS s1) := by
        rw [halpha, max_assoc]
      have hrec := ihl (max maxS s1) (if maxS < s1 then some n else best)
        alpha0 (max alpha s1) beta halpha' hbr'
      rcases le_or_lt s1 alpha with hs1a | hs1a
      · have hv1a : v1 ≤ alpha := hFS1.1 hs1a
        obtain ⟨A, B, C⟩ := hrec
        refine ⟨?_, ?_, ?_⟩
        · intro hle
          have hw' := A hle
          have hmaxS0 : maxS ≤ alpha0 :=
            le_trans (le_trans (le_max_left maxS s1)
              (le_max_left (max maxS s1) Wrest)) hw'
          have hWrest0 : Wrest ≤ alpha0 :=
            le_trans (le_max_right (max maxS s1) Wrest) hw'
          have halpha_le : alpha ≤ alpha0 := by
            rw [halpha]
            exact max_le (le_refl alpha0) hmaxS0
          have hv10 : v1 ≤ alpha0 := le_trans hv1a halpha_le
          exact max_le hmaxS0 (max_le hv10 hWrest0)
        · intro hbr2
          have hw' := B hbr2
          rcases le_max_iff.mp hw' with h | h
          · rcases le_max_iff.mp h with h' | h'
            · exact le_trans h' (le_max_left maxS (max v1 Wrest))
            · exact absurd (lt_of_le_of_lt (le_trans h' hs1a) hab)
                (lt_irrefl beta)
          · exact le_trans h (le_trans (le_max_right v1 Wrest)
              (le_max_right maxS (max v1 Wrest)))
        · intro h1 h2
          have hr := C h1 h2
          rw [hr]
          have hM : max (max maxS s1) Wrest = max (max maxS Wrest) s1 :=
            sup_right_comm maxS s1 Wrest
          rcases le_or_lt s1 (max maxS Wrest) with hsM | hsM
          · have hw'M : max (max maxS s1) Wrest = max maxS Wrest := by
              rw [hM]
              exact max_eq_left hsM
            have halpha0M : alpha0 < max maxS Wrest := by
              rw [← hw'M]
              exact hr ▸ h1
            have halphaM : alpha ≤ max maxS Wrest := by
              rw [halpha]
              exact max_le (le_of_lt halpha0M) (le_max_left maxS Wrest)
            have hv1M : v1 ≤ max maxS Wrest := le_trans hv1a halphaM
            rw [hw'M]
            have hac : max maxS (max v1 Wrest) = max (max maxS Wrest) v1 := by
              rw [← max_assoc]
              exact sup_right_comm maxS v1 Wrest
            rw [hac, max_eq_left hv1M]
          · exfalso
            have hw's : max (max maxS s1) Wrest = s1 := by
              rw [hM]
              exact max_eq_right (le_of_lt hsM)
            have hs10 : alpha0 < s1 := by
              rw [← hw's]
              exact hr ▸ h1
            rcases le_max_iff.mp (halpha ▸ hs1a) with h' | h'
            · exact absurd hs10 (not_lt.mpr h')
            · exact absurd (lt_of_le_of_lt
                (le_trans h' (le_max_left maxS Wrest)) hsM) (lt_irrefl s1)
      · rcases lt_or_le s1 beta with hs1b | hs1b
        · have hv1eq : s1 = v1 := hFS1.2.2 hs1a hs1b
          have hww : max maxS (max v1 Wrest) = max (max maxS s1) Wrest := by
            rw [← hv1eq, max_assoc]
          rw [hww]
          exact hrec
        · exact absurd (lt_of_le_of_lt
            (le_trans hs1b (le_max_right alpha s1)) hbr') (lt_irrefl beta)

theorem minLoop_spec (g : Graph) (tgt : Word) (eval : Word → Score) (d : ℕ)
    (ih : ∀ cur alpha beta, alpha < beta →
      FailSoft ((minimax g tgt eval d cur alpha beta true).1)
        (minimaxBF g tgt eval d cur true) alpha beta) :
    ∀ (l : List Word) (minS : Score) (best : Option Word)
      (alpha beta0 beta : Score), beta = min beta0 minS → alpha < beta →
      FailSoft ((minLoop g tgt eval d l minS best alpha beta).1)
        (min minS
          ((l.map (fun n => minimaxBF g tgt eval d n true)).foldl min ⊤))
        alpha beta0 := by
  intro l
  induction l with
  | nil =>
    intro minS best alpha beta0 beta hbeta hab
    rw [minLoop]
    simp only [List.map_nil, List.foldl_nil]
    rw [min_eq_left le_top]
    exact failSoft_refl minS alpha beta0
  | cons n rest ihl =>
    intro minS best alpha beta0 beta hbeta hab
    have hbeta0 : beta ≤ beta0 := hbeta ▸ min_le_left beta0 minS
    have hminSbeta : beta ≤ minS := hbeta ▸ min_le_right beta0 minS
    set s1 := (minimax g tgt eval d n alpha beta true).1 with hs1def
    set v1 := minimaxBF g tgt eval d n true with hv1def
    set Wrest := ((rest.map
      (fun n => minimaxBF g tgt eval d n true)).foldl min ⊤) with hWdef
    have hW : (((n :: rest).map
        (fun n => minimaxBF g tgt eval d n true)).foldl min ⊤)
        = min v1 Wrest := by
      simp only [List.map_cons, List.foldl_cons]
      rw [foldl_min_eq, min_eq_right le_top]
    rw [hW, minLoop]
    simp only [← hs1def, ite_lt_min]
    have hFS1 := ih n alpha beta hab
    rw [← hs1def, ← hv1def] at hFS1
    by_cases hbr : min beta s1 ≤ alpha
    · rw [if_pos hbr]
      have hs1a : s1 ≤ alpha := by
        rcases min_le_iff.mp hbr with h | h
        · exact absurd (lt_of_lt_of_le hab h) (lt_irrefl alpha)
        · exact h
      have hv1a : v1 ≤ alpha := hFS1.1 hs1a
      refine ⟨?_, ?_, ?_⟩
      · intro _
        exact le_trans (le_trans (min_le_right minS (min v1 Wrest))
          (min_le_left v1 Wrest)) hv1a
      · intro hge
        exfalso
        have h1 : beta0 ≤ alpha :=
          le_trans (le_trans hge (min_le_right minS s1)) hs1a
        exact absurd (lt_of_lt_of_le hab (le_trans hbeta0 h1))
          (lt_irrefl alpha)
      · intro h1 _
        exact absurd (lt_of_lt_of_le h1 (le_trans (min_le_right minS s1) hs1a))
          (lt_irrefl alpha)
    · rw [if_neg hbr]
      have hbr' : alpha < min beta s1 := not_le.mp hbr
      have hbeta' : min beta s1 = min beta0 (min minS s1) := by
        rw [hbeta, min_assoc]
      have hrec := ihl (min minS s1) (if s1 < minS then some n else best)
        alpha beta0 (min beta s1) hbeta' hbr'
      rcases le_or_lt beta s1 with hs1b | hs1b
      · have hv1b : beta ≤ v1 := hFS1.2.1 hs1b
        obtain ⟨A, B, C⟩ := hrec
        refine ⟨?_, ?_, ?_⟩
        · intro hle
          have hw' := A hle
          rcases min_le_iff.mp hw' with h | h
          · rcases min_le_iff.mp h with h' | h'
            · exact le_trans (min_le_left minS (min v1 Wrest)) h'
            · exact absurd (lt_of_lt_of_le hab (le_trans hs1b h'))
                (lt_irrefl alpha)
          · exact le_trans (le_trans (min_le_right minS (min v1 Wrest))
              (min_le_right v1 Wrest)) h
        · intro hge
          have hw' := B hge
          have hminS0 : beta0 ≤ minS :=
            le_trans hw' (le_trans (min_le_left (min minS s1) Wrest)
              (min_le_left minS s1))
          have hWrest0 : beta0 ≤ Wrest :=
            le_trans hw' (min_le_right (min minS s1) Wrest)
          have hbeta_ge : beta0 ≤ beta := by
            rw [hbeta]
            exact le_min (le_refl beta0) hminS0
          have hv10 : beta0 ≤ v1 := le_trans hbeta_ge hv1b
          exact le_min hminS0 (le_min hv10 hWrest0)
        · intro h1 h2
          have hr := C h1 h2
          rw [hr]
          have hM : min (min minS s1) Wrest = min (min minS Wrest) s1 :=
            inf_right_comm minS s1 Wrest
          rcases le_or_lt (min minS Wrest) s1 with hsM | hsM
          · have hw'M : min (min minS s1) Wrest = min minS Wrest := by
              rw [hM]
              exact min_eq_left hsM
            have hbeta0M : min minS Wrest < beta0 := by
              rw [← hw'M]
              exact hr ▸ h2
            have hbetaM : min minS Wrest ≤ beta := by
              rw [hbeta]
              exact le_min (le_of_lt hbeta0M) (min_le_left minS Wrest)
            have hv1M : min minS Wrest ≤ v1 := le_trans hbetaM hv1b
            rw [hw'M]
            have hac : min minS (min v1 Wrest) = min (min minS Wrest) v1 := by
              rw [← min_assoc]
              exact inf_right_comm minS v1 Wrest
            rw [hac, min_eq_left hv1M]
          · exfalso
            have hw's : min (min minS s1) Wrest = s1 := by
              rw [hM]
              exact min_eq_right (le_of_lt hsM)
            have hs10 : s1 < beta0 := by
              rw [← hw's]
              exact hr ▸ h2
            rcases min_le_iff.mp (hbeta ▸ hs1b) with h' | h'
            · exact absurd hs10 (not_lt.mpr h')
            · exact absurd (lt_of_le_of_lt
                (le_trans (min_le_left minS Wrest) h') hsM)
                (lt_irrefl (min minS Wrest))
      · rcases le_or_lt s1 alpha with hs1a | hs1a
        · exact absurd (lt_of_lt_of_le hbr' (le_trans (min_le_right beta s1)
            hs1a)) (lt_irrefl alpha)
        · have hv1eq : s1 = v1 := hFS1.2.2 hs1a hs1b
          have hww : min minS (min v1 Wrest) = min (min minS s1) Wrest := by
            rw [← hv1eq, min_assoc]
          rw [hww]
          exact hrec

theorem minimax_fail_soft (g : Graph) (tgt : Word) (eval : Word → Score) :
    ∀ (depth : ℕ) (cur : Word) (alpha beta : Score) (isMax : Bool),
      alpha < beta →
      FailSoft ((minimax g tgt eval depth cur alpha beta isMax).1)
        (minimaxBF g tgt eval depth cur isMax) alpha beta := by
  intro depth
  induction depth with
  | zero =>
    intro cur alpha beta isMax hab
    simp only [minimax, minimaxBF]
    exact failSoft_refl _ _ _
  | succ d ihd =>
    intro cur alpha beta isMax hab
    have ihF : ∀ cur alpha beta, alpha < beta →
        FailSoft ((minimax g tgt eval d cur alpha beta false).1)
          (minimaxBF g tgt eval d cur false) alpha beta :=
      fun cu a b h => ihd cu a b false h
    have ihT : ∀ cur alpha beta, alpha < beta →
        FailSoft ((minimax g tgt eval d cur alpha beta true).1)
          (minimaxBF g tgt eval d cur true) alpha beta :=
      fun cu a b h => ihd cu a b true h
    rw [minimax, minimaxBF]
    by_cases htgt : cur = tgt
    · rw [if_pos htgt, if_pos htgt]
      exact failSoft_refl _ _ _
    · rw [if_neg htgt, if_neg htgt]
      dsimp only
      by_cases hnb : getNeighbors g cur = []
      · rw [if_pos hnb, if_pos hnb]
        cases isMax <;> exact failSoft_refl _ _ _
      · rw [if_neg hnb, if_neg hnb]
        cases isMax with
        | true =>
          have h := maxLoop_spec g tgt eval d ihF (getNeighbors g cur) ⊥ none
            alpha alpha beta (max_eq_left bot_le).symm hab
          rw [max_eq_right bot_le] at h
          exact h
        | false =>
          have h := minLoop_spec g tgt eval d ihT (getNeighbors g cur) ⊤ none
            alpha beta beta (min_eq_left le_top).symm hab
          rw [min_eq_right le_top] at h
          exact h

theorem minimax_root_eq_bruteForce (g : Graph) (tgt : Word)
    (eval : Word → Score) (depth : ℕ) (cur : Word) (isMax : Bool) :
    (minimax g tgt eval depth cur ⊥ ⊤ isMax).1
      = minimaxBF g tgt eval depth cur isMax := by
  obtain ⟨A, B, C⟩ := minimax_fail_soft g tgt eval depth cur ⊥ ⊤ isMax bot_lt_top
  rcases le_or_lt (minimax g tgt eval depth cur ⊥ ⊤ isMax).1 ⊥ with h1 | h1
  · rw [le_bot_iff.mp h1, le_bot_iff.mp (A h1)]
  · rcases le_or_lt ⊤ (minimax g tgt eval depth cur ⊥ ⊤ isMax).1 with h2 | h2
    · rw [top_le_iff.mp h2, top_le_iff.mp (B h2)]
    · exact C h1 h2

/-- C5: for every position (current word, target word, opponent ladder) the
score of the depth-4 alpha-beta minimax used by the Expert AI (full window
`(-∞, ∞)`) equals the score of a brute-force depth-4 minimax with no
pruning over the same evaluation function — pruning never changes the root
score.  (`selectExpertMove` consumes no random draws, so the statement
holds for every sequence of draws trivially.) -/
theorem expert_minimax_pruning_exact (g : Graph) (c : PathCache)
    (currentWord targetWord : Word) (playerLadder : List Word) :
    (minimax g targetWord (evaluatePosition g c targetWord playerLadder) 4
        currentWord ⊥ ⊤ true).1
      = minimaxBF g targetWord (evaluatePosition g c targetWord playerLadder) 4
        currentWord true :=
  minimax_root_eq_bruteForce g targetWord
    (evaluatePosition g c targetWord playerLadder) 4 currentWord true

/-- Counterexample to C10 as stated: `"toString"` is not one of the four
difficulty keys, yet the call does not throw a `TypeError` - the property
lookup walks the prototype chain, finds the inherited
`Object.prototype.toString`, and the call returns the string
`"[object Object]"`. -/
theorem selectAIMove_inherited_counterexample :
    ("toString" : String) ∉ (["easy", "medium", "hard", "expert"] : List String)
    ∧ selectAIMove [] [] ['c','a','t'] ['d','o','g'] "toString" [] (fun _ => 0)
        = .ok (.str "[object Object]") :=
  ⟨by decide, rfl⟩

/-- C10 (amended): `strategies[difficulty]` dispatches on the four lowercase
own keys, each returning a move (a word or none). A difficulty string that
is neither an own key nor a property of `Object.prototype` - including
`"Easy"` - yields `undefined` and the call throws a `TypeError`. But a
difficulty naming an inherited `Object.prototype` member resolves through
the prototype chain instead: the seven standard methods and the two Annex B
lookup helpers are called and return a non-move value without throwing,
while `__defineGetter__` and `__defineSetter__` (their getter/setter
argument, the target word, is not callable) and `__proto__` (which reads as
a non-function object) still throw a `TypeError`. -/
theorem selectAIMove_difficulty_dispatch (g : Graph) (c : PathCache)
    (cur tgt : Word) (ladder : List Word) (rng : ℕ → ℚ) (difficulty : String) :
    (difficulty ∉ (["easy", "medium", "hard", "expert"] : List String) →
      difficulty ∉ objectPrototypeKeys →
      selectAIMove g c cur tgt difficulty ladder rng = .error .typeError)
    ∧ (difficulty ∈ (["easy", "medium", "hard", "expert"] : List String) →
      ∃ w, selectAIMove g c cur tgt difficulty ladder rng = .ok (.move w))
    ∧ (difficulty ∈ (["constructor", "hasOwnProperty", "isPrototypeOf",
        "propertyIsEnumerable", "toLocaleString", "toString", "valueOf",
        "__lookupGetter__", "__lookupSetter__"] : List String) →
      ∃ v, selectAIMove g c cur tgt difficulty ladder rng = .ok v
        ∧ ∀ w, v ≠ JsValue.move w)
    ∧ (difficulty ∈ (["__defineGetter__", "__defineSetter__", "__proto__"]
        : List String) →
      selectAIMove g c cur tgt difficulty ladder rng = .error .typeError) := by
  refine ⟨?_, ?_, ?_, ?_⟩
  · intro h hp
    have h1 : ¬(("easy" : String) = difficulty) := by
      intro hh
      exact h (by rw [← hh]; simp)
    have h2 : ¬(("medium" : String) = difficulty) := by
      intro hh
      exact h (by rw [← hh]; simp)
    have h3 : ¬(("hard" : String) = difficulty) := by
      intro hh
      exact h (by rw [← hh]; simp)
    have h4 : ¬(("expert" : String) = difficulty) := by
      intro hh
      exact h (by rw [← hh]; simp)
    unfold selectAIMove strategiesTable
    rw [alLookup, if_neg h1, alLookup, if_neg h2, alLookup, if_neg h3,
      alLookup, if_neg h4, alLookup]
    dsimp only
    rw [if_neg hp]
  · intro h
    simp only [List.mem_cons, List.mem_singleton] at h
    rcases h with rfl | rfl | rfl | h
    · exact ⟨_, rfl⟩
    · exact ⟨_, rfl⟩
    · exact ⟨_, rfl⟩
    · rcases h with rfl | h
      · exact ⟨_, rfl⟩
      · simp at h
  · intro h
    simp only [List.mem_cons, List.mem_singleton] at h
    rcases h with rfl | rfl | rfl | rfl | rfl | rfl | rfl | rfl | h
    · exact ⟨_, rfl, fun w hw => nomatch hw⟩
    · exact ⟨_, rfl, fun w hw => nomatch hw⟩
    · exact ⟨_, rfl, fun w hw => nomatch hw⟩
    · exact ⟨_, rfl, fun w hw => nomatch hw⟩
    · exact ⟨_, rfl, fun w hw => nomatch hw⟩
    · exact ⟨_, rfl, fun w hw => nomatch hw⟩
    · exact ⟨_, rfl, fun w hw => nomatch hw⟩
    · exact ⟨_, rfl, fun w hw => nomatch hw⟩
    · rcases h with rfl | h
      · exact ⟨_, rfl, fun w hw => nomatch hw⟩
      · simp at h
  · intro h
    simp only [List.mem_cons, List.mem_singleton] at h
    rcases h with rfl | rfl | h
    · rfl
    · rfl
    · rcases h with rfl | h
      · rfl
      · simp at h

/-- Witness for C10 (amended): `"Easy"` is neither an own strategy key nor
an `Object.prototype` property, and the call throws a `TypeError`. -/
theorem selectAIMove_difficulty_dispatch_witness :
    selectAIMove [] [] ['c','a','t'] ['d','o','g'] "Easy" [] (fun _ => 0)
      = .error .typeError :=
  (selectAIMove_difficulty_dispatch [] [] ['c','a','t'] ['d','o','g'] []
    (fun _ => 0) "Easy").1 (by decide) (by decide)

end WordLadder

